import Mathlib

/-!
Shallow embedding of the cabin package manager's core logic
(`src/VersionReq.cc`, `src/Manifest.cc`, `src/Algos.hpp`,
`src/BuildConfig.cc`, `src/Command.cc`, `src/Builder/Compiler.cc`)
together with theorems checking the natural-language specification
against the code.

Machine integers: the C++ code stores version components in `uint64_t`
and in-degrees in `u32`.  Version components are modelled as `Nat`
(the semver grammar in the spec puts no bound on numerals); in-degree
counters are modelled with explicit wrap-around modulo `2^32`.
-/

namespace Cabin

/-! ### Semver data model

`Semver.hpp` / `Semver.cc` are not part of `src/`; the `Version`,
`Prerelease` and `VersionParser` entities below are modelled from the
spec (§3 "Data model", §4.A "Semver"): a prerelease is an ordered
sequence of identifiers, each either numeric or alphanumeric; numeric
compares less than alphanumeric, numerics compare numerically,
alphanumerics lexicographically, a shorter sequence (when the shared
prefix is equal) is smaller, and an empty prerelease compares greater
than any nonempty one (a version with nonempty `pre` is less than the
same triple with empty `pre`). -/

/-- Modelled from the spec: a prerelease identifier (§4.A), either
numeric or alphanumeric. -/
inductive PreId where
  | num (n : Nat)
  | alnum (s : String)
deriving DecidableEq, Repr

/-- Lexicographic strict order on character lists. -/
def charListLt : List Char → List Char → Bool
  | [], [] => false
  | [], _ :: _ => true
  | _ :: _, [] => false
  | a :: as, b :: bs =>
    if a < b then true
    else if b < a then false
    else charListLt as bs

/-- Lexicographic strict order on strings. -/
def strLt (s t : String) : Bool := charListLt s.data t.data

/-- Modelled from the spec: strict order on prerelease identifiers
(numeric < alphanumeric; numerics numerically; alphanumerics
lexicographically). -/
def preIdLt (a b : PreId) : Bool :=
  match a, b with
  | .num n, .num m => decide (n < m)
  | .num _, .alnum _ => true
  | .alnum _, .num _ => false
  | .alnum s, .alnum t => strLt s t

/-- A prerelease: an ordered sequence of identifiers. -/
def Prerelease : Type := List PreId

instance : DecidableEq Prerelease := inferInstanceAs (DecidableEq (List PreId))

instance : Repr Prerelease := inferInstanceAs (Repr (List PreId))

/-- Modelled from the spec: strict order on prereleases.  The empty
prerelease is greatest; otherwise identifiers are compared
componentwise, with the shorter sequence smaller when the shared
prefix is equal. -/
def preLt : Prerelease → Prerelease → Bool
  | [], _ => false
  | _ :: _, [] => true
  | a :: as, b :: bs =>
    if preIdLt a b then true
    else if preIdLt b a then false
    else if a = b then preLt as bs
    else false

/-- `a > b` on prereleases. -/
def preGt (a b : Prerelease) : Bool := preLt b a

/-- `a >= b` on prereleases (the order is total, so `>=` is `¬ <`). -/
def preGe (a b : Prerelease) : Bool := !preLt a b

/-- Modelled from the spec: a version `(major, minor, patch, pre)`.
Build metadata never affects comparison or requirement matching, and
the requirement evaluator discards it, so it is omitted. -/
structure Version where
  major : Nat
  minor : Nat
  patch : Nat
  pre : Prerelease
deriving DecidableEq, Repr

/-- `OptVersion` (VersionReq.hpp): `major` required; `minor`, `patch`,
`pre` optional. -/
structure OptVersion where
  major : Nat
  minor : Option Nat := none
  patch : Option Nat := none
  pre : Prerelease := []
deriving DecidableEq, Repr

/-- `Comparator::Op` (VersionReq.hpp). -/
inductive Op where
  | exact -- =
  | gt    -- >
  | gte   -- >=
  | lt    -- <
  | lte   -- <=
deriving DecidableEq, Repr

/-- `Comparator` (VersionReq.hpp): `(op?, major, minor?, patch?, pre)`. -/
structure Comparator where
  op : Option Op := none
  major : Nat := 0
  minor : Option Nat := none
  patch : Option Nat := none
  pre : Prerelease := []
deriving DecidableEq, Repr

/-- `Comparator::from(OptVersion)` (VersionReq.cc): copy the version
components, keeping the operator. -/
def Comparator.fromOptVer (c : Comparator) (v : OptVersion) : Comparator :=
  { c with major := v.major, minor := v.minor, patch := v.patch, pre := v.pre }

/-- `VersionReq` (VersionReq.hpp): at most two comparators joined by
logical AND. -/
structure VersionReq where
  left : Comparator
  right : Option Comparator := none
deriving DecidableEq, Repr

/-! ### Requirement matching (VersionReq.cc, lines 242-370) -/

/-- `matchesExact` (VersionReq.cc:242). -/
def matchesExact (cmp : Comparator) (ver : Version) : Bool :=
  if ver.major ≠ cmp.major then false
  else if cmp.minor.elim false (fun minor => ver.minor ≠ minor) then false
  else if cmp.patch.elim false (fun patch => ver.patch ≠ patch) then false
  else decide (ver.pre = cmp.pre)

/-- `matchesGreater` (VersionReq.cc:262). -/
def matchesGreater (cmp : Comparator) (ver : Version) : Bool :=
  if ver.major ≠ cmp.major then decide (ver.major > cmp.major)
  else match cmp.minor with
  | none => false
  | some minor =>
    if ver.minor ≠ minor then decide (ver.minor > minor)
    else match cmp.patch with
    | none => false
    | some patch =>
      if ver.patch ≠ patch then decide (ver.patch > patch)
      else preGt ver.pre cmp.pre

/-- `matchesLess` (VersionReq.cc:288). -/
def matchesLess (cmp : Comparator) (ver : Version) : Bool :=
  if ver.major ≠ cmp.major then decide (ver.major < cmp.major)
  else match cmp.minor with
  | none => false
  | some minor =>
    if ver.minor ≠ minor then decide (ver.minor < minor)
    else match cmp.patch with
    | none => false
    | some patch =>
      if ver.patch ≠ patch then decide (ver.patch < patch)
      else preLt ver.pre cmp.pre

/-- `matchesNoOp` (VersionReq.cc:314). -/
def matchesNoOp (cmp : Comparator) (ver : Version) : Bool :=
  if ver.major ≠ cmp.major then false
  else match cmp.minor with
  | none => true
  | some minor =>
    match cmp.patch with
    | none =>
      if cmp.major > 0 then decide (ver.minor ≥ minor)
      else decide (ver.minor = minor)
    | some patch =>
      if cmp.major > 0 then
        if ver.minor ≠ minor then decide (ver.minor > minor)
        else if ver.patch ≠ patch then decide (ver.patch > patch)
        else preGe ver.pre cmp.pre
      else if minor > 0 then
        if ver.minor ≠ minor then false
        else if ver.patch ≠ patch then decide (ver.patch > patch)
        else preGe ver.pre cmp.pre
      else if ver.minor ≠ minor ∨ ver.patch ≠ patch then false
      else preGe ver.pre cmp.pre

/-- `Comparator::satisfiedBy` (VersionReq.cc:352). -/
def Comparator.satisfiedBy (cmp : Comparator) (ver : Version) : Bool :=
  match cmp.op with
  | none => matchesNoOp cmp ver
  | some .exact => matchesExact cmp ver
  | some .gt => matchesGreater cmp ver
  | some .gte => matchesExact cmp ver || matchesGreater cmp ver
  | some .lt => matchesLess cmp ver
  | some .lte => matchesExact cmp ver || matchesLess cmp ver

/-- `preIsCompatible` (VersionReq.cc:558): the comparator names the
same `(major, minor, patch)` (minor and patch explicitly present)
with a nonempty prerelease. -/
def preIsCompatible (cmp : Comparator) (ver : Version) : Bool :=
  decide (cmp.major = ver.major) && cmp.minor.elim false (fun m => decide (m = ver.minor))
    && cmp.patch.elim false (fun p => decide (p = ver.patch)) && !cmp.pre.isEmpty

/-- `VersionReq::satisfiedBy` (VersionReq.cc:565). -/
def VersionReq.satisfiedBy (req : VersionReq) (ver : Version) : Bool :=
  if !req.left.satisfiedBy ver then false
  else if req.right.elim false (fun rc => !rc.satisfiedBy ver) then false
  else if ver.pre.isEmpty then true
  else if preIsCompatible req.left ver then true
  else if req.right.elim false (fun rc => preIsCompatible rc ver) then true
  else false

/-! ### Canonicalization (VersionReq.cc, lines 372-409 and 587-770) -/

/-- `Comparator::canonicalize` (VersionReq.cc:372). -/
def Comparator.canonicalize (c : Comparator) : Comparator :=
  match c.op with
  | none => c
  | some .exact => c
  | some op =>
    match op with
    | .gte | .lt =>
      -- the `default:` branch: fill in missing minor/patch with 0
      { c with minor := some (c.minor.getD 0), patch := some (c.patch.getD 0) }
    | _ =>
      -- Gt becomes Gte, Lte becomes Lt, then bump the finest component
      let newOp : Op := if op = .gt then .gte else .lt
      match c.patch with
      | some p => { c with op := some newOp, patch := some (p + 1) }
      | none =>
        match c.minor with
        | some m =>
          { c with op := some newOp, minor := some (m + 1), patch := some 0 }
        | none =>
          { c with op := some newOp, major := c.major + 1, minor := some 0,
                   patch := some 0 }

/-- `canonicalizeNoOp` (VersionReq.cc:594).  The lookups
`left.minor.value()` on line 660/672 of the source can only be reached
with `minor` present (the parser never produces `patch` without
`minor`); they are rendered as `getD 0`. -/
def canonicalizeNoOp (target : VersionReq) : VersionReq :=
  if target.left.minor = none ∧ target.left.patch = none then
    -- 1.3. `A` is equivalent to `=A`
    { left := { op := some .gte, major := target.left.major, minor := some 0,
                patch := some 0, pre := target.left.pre },
      right := some { op := some .lt, major := target.left.major + 1, minor := some 0,
                      patch := some 0, pre := target.left.pre } }
  else if target.left.major > 0 then
    if target.left.patch ≠ none then
      -- 1.1. `A.B.C` (A > 0) is equivalent to `>=A.B.C && <(A+1).0.0`
      { left := { op := some .gte, major := target.left.major, minor := target.left.minor,
                  patch := target.left.patch, pre := target.left.pre },
        right := some { op := some .lt, major := target.left.major + 1,
                        minor := some 0, patch := some 0, pre := target.left.pre } }
    else
      -- 1.2. `A.B` (A > 0 & B > 0) is equivalent to `^A.B.0`
      { left := { op := some .gte, major := target.left.major, minor := target.left.minor,
                  patch := some 0, pre := target.left.pre },
        right := some { op := some .lt, major := target.left.major + 1,
                        minor := some 0, patch := some 0, pre := target.left.pre } }
  else if target.left.minor.getD 0 > 0 then
    -- 1.4. `0.B.C` (B > 0) is equivalent to `>=0.B.C && <0.(B+1).0`
    { left := { op := some .gte, major := 0, minor := target.left.minor,
                patch := some (target.left.patch.getD 0), pre := target.left.pre },
      right := some { op := some .lt, major := 0,
                      minor := some (target.left.minor.getD 0 + 1), patch := some 0,
                      pre := target.left.pre } }
  else if target.left.patch ≠ none then
    -- 1.5. `0.0.C` is equivalent to `=0.0.C`
    { left := { op := some .exact, major := 0, minor := some 0,
                patch := target.left.patch, pre := target.left.pre },
      right := none }
  else
    -- 1.6. `0.0` is equivalent to `=0.0`
    { left := { op := some .gte, major := 0, minor := some 0, patch := some 0,
                pre := target.left.pre },
      right := some { op := some .lt, major := 0, minor := some 1,
                      patch := some 0, pre := target.left.pre } }

/-- `canonicalizeExact` (VersionReq.cc:714). -/
def canonicalizeExact (req : VersionReq) : VersionReq :=
  if req.left.minor ≠ none ∧ req.left.patch ≠ none then
    -- 2.1. `=A.B.C` is exactly the version A.B.C
    req
  else if req.left.minor ≠ none then
    -- 2.2. `=A.B` is equivalent to `>=A.B.0 && <A.(B+1).0`
    { left := { op := some .gte, major := req.left.major, minor := req.left.minor,
                patch := some 0, pre := req.left.pre },
      right := some { op := some .lt, major := req.left.major,
                      minor := some (req.left.minor.getD 0 + 1), patch := some 0,
                      pre := req.left.pre } }
  else
    -- 2.3. `=A` is equivalent to `>=A.0.0 && <(A+1).0.0`
    { left := { op := some .gte, major := req.left.major, minor := some 0,
                patch := some 0, pre := req.left.pre },
      right := some { op := some .lt, major := req.left.major + 1, minor := some 0,
                      patch := some 0, pre := req.left.pre } }

/-- `VersionReq::canonicalize` (VersionReq.cc:757). -/
def VersionReq.canonicalize (req : VersionReq) : VersionReq :=
  match req.left.op with
  | none => canonicalizeNoOp req
  | some .exact => canonicalizeExact req
  | some _ =>
    { left := req.left.canonicalize, right := req.right.map Comparator.canonicalize }

/-! ### Version-requirement parser (VersionReq.cc, lines 35-556)

The input is a list of characters, positions are explicit indices.
The numeral / prerelease / build token parsers live in the missing
`Semver.cc` and are modelled from the spec (§4.A): identifiers are
tokens of `[0-9A-Za-z-]`, a numeric identifier with a leading zero is
rejected, an empty identifier is rejected, diagnostics carry the input
and a caret under the failure column. -/

/-- `std::isspace` in the C locale. -/
def isCSpace (c : Char) : Bool :=
  c = ' ' || c = '\t' || c = '\n' || c = '\x0b' || c = '\x0c' || c = '\r'

/-- Advance past whitespace (`skipWs`). -/
def skipWs (s : List Char) (pos : Nat) : Nat :=
  pos + ((s.drop pos).takeWhile isCSpace).length

/-- Decimal value of a digit string. -/
def natOfDigits (ds : List Char) : Nat :=
  ds.foldl (fun a c => a * 10 + (c.toNat - 48)) 0

/-- Caret diagnostic: `<kind>:\n<input>\n<spaces>^ <why>`. -/
def caretMsg (kind : String) (s : List Char) (pos : Nat) (why : String) : String :=
  kind ++ ":\n" ++ String.mk s ++ "\n" ++ String.mk (List.replicate pos ' ')
    ++ "^ " ++ why

/-- `invalid semver` diagnostic. -/
def semverErr (s : List Char) (pos : Nat) (why : String) : String :=
  caretMsg "invalid semver" s pos why

/-- `invalid comparator` diagnostic (ComparatorBail). -/
def cmpErr (s : List Char) (pos : Nat) (why : String) : String :=
  caretMsg "invalid comparator" s pos why

/-- `invalid version requirement` diagnostic (VersionReqBail). -/
def reqErr (s : List Char) (pos : Nat) (why : String) : String :=
  caretMsg "invalid version requirement" s pos why

/-- Modelled from the spec: `VersionParser::parseNum` (missing
`Semver.cc`): a nonempty digit run with no leading zero. -/
def parseNum (s : List Char) (pos : Nat) : Except String (Nat × Nat) :=
  let ds := (s.drop pos).takeWhile Char.isDigit
  if ds.isEmpty then .error (semverErr s pos "expected number")
  else if ds.length > 1 ∧ ds.head? = some '0' then
    .error (semverErr s pos "invalid leading zero")
  else .ok (natOfDigits ds, pos + ds.length)

/-- A prerelease / build identifier character: `[0-9A-Za-z-]`. -/
def isIdentChar (c : Char) : Bool := c.isAlphanum || c = '-'

/-- Modelled from the spec: one prerelease identifier — numeric if all
digits (no leading zero), alphanumeric otherwise. -/
def parsePreIdent (s : List Char) (pos : Nat) : Except String (PreId × Nat) :=
  let cs := (s.drop pos).takeWhile isIdentChar
  if cs.isEmpty then .error (semverErr s pos "expected number or identifier")
  else if cs.all Char.isDigit then
    if cs.length > 1 ∧ cs.head? = some '0' then
      .error (semverErr s pos "invalid leading zero")
    else .ok (.num (natOfDigits cs), pos + cs.length)
  else .ok (.alnum (String.mk cs), pos + cs.length)

/-- Modelled from the spec: `parsePre` — `.`-separated identifiers.
The fuel argument only bounds the recursion; every identifier consumes
at least one character, so it is never exhausted. -/
def parsePreList (s : List Char) : Nat → Nat → Except String (List PreId × Nat)
  | 0, pos => .error (semverErr s pos "expected number or identifier")
  | fuel + 1, pos =>
    match parsePreIdent s pos with
    | .error e => .error e
    | .ok (pid, p) =>
      if s[p]? = some '.' then
        match parsePreList s fuel (p + 1) with
        | .error e => .error e
        | .ok (pids, q) => .ok (pid :: pids, q)
      else .ok ([pid], p)

/-- `parsePre` entry point. -/
def parsePre (s : List Char) (pos : Nat) : Except String (List PreId × Nat) :=
  parsePreList s (s.length + 1 - pos) pos

/-- Modelled from the spec: one build identifier (nonempty run of
identifier characters; leading zeros are accepted). -/
def parseBuildIdent (s : List Char) (pos : Nat) : Except String Nat :=
  let cs := (s.drop pos).takeWhile isIdentChar
  if cs.isEmpty then .error (semverErr s pos "expected identifier")
  else .ok (pos + cs.length)

/-- Modelled from the spec: `parseBuild` — `.`-separated identifiers,
discarded by the requirement lexer. -/
def parseBuildList (s : List Char) : Nat → Nat → Except String Nat
  | 0, pos => .error (semverErr s pos "expected identifier")
  | fuel + 1, pos =>
    match parseBuildIdent s pos with
    | .error e => .error e
    | .ok p =>
      if s[p]? = some '.' then parseBuildList s fuel (p + 1)
      else .ok p

/-- `parseBuild` entry point. -/
def parseBuild (s : List Char) (pos : Nat) : Except String Nat :=
  parseBuildList s (s.length + 1 - pos) pos

/-- The `OptVersion` token scan inside `ComparatorLexer::next`
(VersionReq.cc:104-136): `num ("." num ("." num ("-" pre)? ("+"
build)?)?)?`, build metadata discarded. -/
def lexVersionToken (s : List Char) (pos : Nat) :
    Except String (OptVersion × Nat) :=
  match parseNum s pos with
  | .error e => .error e
  | .ok (major, p1) =>
    if s[p1]? ≠ some '.' then .ok ({ major }, p1)
    else
      match parseNum s (p1 + 1) with
      | .error e => .error e
      | .ok (minor, p2) =>
        if s[p2]? ≠ some '.' then .ok ({ major, minor := some minor }, p2)
        else
          match parseNum s (p2 + 1) with
          | .error e => .error e
          | .ok (patch, p3) =>
            match
              (if s[p3]? = some '-' then parsePre s (p3 + 1)
               else .ok ([], p3)) with
            | .error e => .error e
            | .ok (pre, p4) =>
              match
                (if s[p4]? = some '+' then parseBuild s (p4 + 1)
                 else .ok p4) with
              | .error e => .error e
              | .ok p5 =>
                .ok ({ major, minor := some minor, patch := some patch,
                       pre := pre }, p5)

/-- `ComparatorToken` (VersionReq.cc:35). -/
inductive CompToken where
  | eq
  | gt
  | gte
  | lt
  | lte
  | ver (v : OptVersion)
  | eof
  | unknown
deriving DecidableEq, Repr

/-- The comparison operator of a comparator token, if any. -/
def CompToken.toOp : CompToken → Option Op
  | .eq => some .exact
  | .gt => some .gt
  | .gte => some .gte
  | .lt => some .lt
  | .lte => some .lte
  | _ => none

/-- `ComparatorLexer::next` (VersionReq.cc:75). -/
def compLexNext (s : List Char) (pos : Nat) :
    Except String (CompToken × Nat) :=
  match s[pos]? with
  | none => .ok (.eof, pos)
  | some c =>
    if c = '=' then .ok (.eq, pos + 1)
    else if c = '>' then
      if s[pos + 1]? = some '=' then .ok (.gte, pos + 2)
      else .ok (.gt, pos + 1)
    else if c = '<' then
      if s[pos + 1]? = some '=' then .ok (.lte, pos + 2)
      else .ok (.lt, pos + 1)
    else if c.isDigit then
      match lexVersionToken s pos with
      | .error e => .error e
      | .ok (v, p) => .ok (.ver v, p)
    else .ok (.unknown, pos)

/-- `ComparatorParser::parse` (VersionReq.cc:148). -/
def comparatorParse (s : List Char) (pos : Nat) :
    Except String (Comparator × Nat) :=
  match compLexNext s pos with
  | .error e => .error e
  | .ok (tok, p1) =>
    match tok.toOp with
    | some op =>
      -- the first token was a comparison operator; the next token must
      -- be a version (the lexer first skips whitespace)
      match compLexNext s (skipWs s p1) with
      | .error e => .error e
      | .ok (.ver v, p3) =>
        .ok (({ op := some op } : Comparator).fromOptVer v, p3)
      | .ok (_, p3) => .error (cmpErr s p3 "expected version")
    | none =>
      match tok with
      | .ver v => .ok (({ } : Comparator).fromOptVer v, p1)
      | _ => .error (cmpErr s p1 "expected =, >=, <=, >, <, or version")

/-- `VersionReqToken` (VersionReq.cc:411). -/
inductive ReqToken where
  | comp (c : Comparator)
  | and
  | eof
  | unknown
deriving DecidableEq, Repr

/-- `isCompStart` (VersionReq.cc:431). -/
def isCompStart (c : Char) : Bool := c = '=' || c = '>' || c = '<'

/-- `VersionReqLexer::next` (VersionReq.cc:449). -/
def reqLexNext (s : List Char) (pos : Nat) : Except String (ReqToken × Nat) :=
  match s[skipWs s pos]? with
  | none => .ok (.eof, skipWs s pos)
  | some c =>
    if isCompStart c || c.isDigit then
      match comparatorParse s (skipWs s pos) with
      | .error e => .error e
      | .ok (comp, q) => .ok (.comp comp, q)
    else if c = '&' ∧ s[skipWs s pos + 1]? = some '&' then
      .ok (.and, skipWs s pos + 2)
    else .ok (.unknown, skipWs s pos)

/-- `VersionReqParser::parseComparatorOrOptVer` (VersionReq.cc:511). -/
def reqParseCompOrOptVer (s : List Char) (pos : Nat) :
    Except String (Comparator × Nat) :=
  match reqLexNext s pos with
  | .error e => .error e
  | .ok (.comp c, p) => .ok (c, p)
  | .ok (_, p) => .error (reqErr s p "expected =, >=, <=, >, <, or version")

/-- `VersionReqParser::parseComparator` (VersionReq.cc:526): accepts
only a chainable comparator — NoOp and Exact cannot chain. -/
def reqParseComparator (s : List Char) (pos : Nat) :
    Except String (Comparator × Nat) :=
  match s[skipWs s pos]? with
  | none => .error (reqErr s (skipWs s pos) "expected >=, <=, >, or <")
  | some c =>
    if !isCompStart c then
      -- NoOp cannot chain
      .error (reqErr s (skipWs s pos) "expected >=, <=, >, or <")
    else if c = '=' then
      -- Exact cannot chain
      .error (reqErr s (skipWs s pos) "expected >=, <=, >, or <")
    else
      match reqLexNext s (skipWs s pos) with
      | .error e => .error e
      | .ok (.comp comp, q) => .ok (comp, q)
      | .ok (_, q) => .error (reqErr s q "expected >=, <=, >, or <")

/-- `VersionReqParser::parse` (VersionReq.cc:478) /
`VersionReq::parse` (VersionReq.cc:553). -/
def VersionReq.parse (s : List Char) : Except String VersionReq :=
  match reqParseCompOrOptVer s 0 with
  | .error e => .error e
  | .ok (left, p1) =>
    if left.op = none ∨ left.op = some .exact then
      -- NoOp or Exact: nothing may follow
      if skipWs s p1 < s.length then
        .error (reqErr s (skipWs s p1) "NoOp and Exact cannot chain")
      else .ok { left := left }
    else
      match reqLexNext s p1 with
      | .error e => .error e
      | .ok (.eof, _) => .ok { left := left }
      | .ok (.and, p2) =>
        match reqParseComparator s p2 with
        | .error e => .error e
        | .ok (right, p3) =>
          if skipWs s p3 < s.length then
            .error (reqErr s (skipWs s p3) "expected end of string")
          else .ok { left := left, right := some right }
      | .ok (_, p2) => .error (reqErr s p2 "expected `&&`")

/-! ### Editions (Manifest.cc, lines 31-50)

`Manifest.hpp` is not in `src/`; the `Edition` record (a `Year` value
plus the original string) and its comparison, which the spec describes
as an ordinal in release order compared ignoring the string, are
modelled from the spec.  `Edition::tryFromString` itself is translated
from `Manifest.cc`. -/

/-- Modelled from the spec: the edition years, in release order. -/
inductive EditionYear where
  | cpp98
  | cpp03
  | cpp11
  | cpp14
  | cpp17
  | cpp20
  | cpp23
  | cpp26
deriving DecidableEq, Repr

/-- Modelled from the spec: the numeric year of an edition, which
realizes the release order. -/
def EditionYear.year : EditionYear → Nat
  | .cpp98 => 1998
  | .cpp03 => 2003
  | .cpp11 => 2011
  | .cpp14 => 2014
  | .cpp17 => 2017
  | .cpp20 => 2020
  | .cpp23 => 2023
  | .cpp26 => 2026

/-- Modelled from the spec: an edition is its year plus the original
string; comparison ignores the string. -/
structure Edition where
  edition : EditionYear
  str : String
deriving DecidableEq, Repr

/-- `Edition::tryFromString` (Manifest.cc:31). -/
def Edition.tryFromString (str : String) : Except String Edition :=
  if str = "98" then .ok ⟨.cpp98, str⟩
  else if str = "03" then .ok ⟨.cpp03, str⟩
  else if str = "0x" ∨ str = "11" then .ok ⟨.cpp11, str⟩
  else if str = "1y" ∨ str = "14" then .ok ⟨.cpp14, str⟩
  else if str = "1z" ∨ str = "17" then .ok ⟨.cpp17, str⟩
  else if str = "2a" ∨ str = "20" then .ok ⟨.cpp20, str⟩
  else if str = "2b" ∨ str = "23" then .ok ⟨.cpp23, str⟩
  else if str = "2c" then .ok ⟨.cpp26, str⟩
  else .error "invalid edition"

/-! ### Test-profile flag inheritance (Manifest.cc, lines 184-247) -/

/-- `InheritMode` (Manifest.cc:184). -/
inductive InheritMode where
  | append
  | overwrite
deriving DecidableEq, Repr

/-- `inheritFlags` (Manifest.cc:199). -/
def inheritFlags (inheritMode : InheritMode) (baseFlags newFlags : List String) :
    List String :=
  if newFlags.isEmpty then baseFlags -- No change, use base flags.
  else
    match inheritMode with
    | .append => baseFlags ++ newFlags
    | .overwrite => newFlags

/-- The cxxflags / ldflags computation of `parseTestProfile`
(Manifest.cc:226-235): the value declared under `[profile.test]`
(`none` when the key is absent, `find_or_default` yields the empty
list) combined with the Dev profile's flags via `inheritFlags`. -/
def testProfileFlagList (inheritMode : InheritMode) (devFlags : List String)
    (declared : Option (List String)) : List String :=
  inheritFlags inheritMode devFlags (declared.getD [])

/-! ### Child-process environment (Command.cc, lines 283-304) -/

/-- The name of a `NAME=value` environment string: the characters up
to the first `=` (`std::ranges::find(envCStr, '=')`). -/
def envName (e : String) : String := String.mk (e.data.takeWhile (· ≠ '='))

/-- `env.starts_with(name)`: prefix test on the character lists. -/
def strStartsWith (s pfx : String) : Bool := pfx.data.isPrefixOf s.data

/-- `notOverriden` (Command.cc:283): an inherited entry survives iff
no explicit builder entry *starts with* the inherited entry's name. -/
def notOverriden (environment : List String) (envStr : String) : Bool :=
  environment.all fun env => !strStartsWith env (envName envStr)

/-- The environment constructed for the child in `Command::spawn`
(Command.cc:294-304): the builder's explicit entries, followed by the
inherited entries that survive `notOverriden`. -/
def childEnvs (environment inherited : List String) : List String :=
  environment ++ inherited.filter (notOverriden environment)

/-- The spec's description of the same computation, for comparison:
drop an inherited entry exactly when its *name equals* the name of
some explicit entry. -/
def childEnvsSpec (environment inherited : List String) : List String :=
  environment ++
    inherited.filter (fun e => environment.all fun x => envName x ≠ envName e)

/-! ### Compiler flag bundles (Builder/Compiler.cc)

`Compiler.hpp` is not in `src/`; per the spec's data model, `Lib`,
`LibDir`, `IncludeDir` wrap a single string (the name / directory) and
`Macro` a name-value pair, so they are modelled as such. -/

/-- The seen-set deduplication loop shared by the `LdFlags`
constructor (Compiler.cc:118) and `LdFlags::merge` (Compiler.cc:132):
keep an element iff its name was not seen before. -/
def dedupLibs (seen : List String) : List String → List String
  | [] => []
  | l :: ls => if l ∈ seen then dedupLibs seen ls else l :: dedupLibs (l :: seen) ls

/-- `LdFlags` (libDirs, libs, others). -/
structure LdFlags where
  libDirs : List String
  libs : List String
  others : List String
deriving DecidableEq, Repr

/-- The `LdFlags` constructor (Compiler.cc:118): removes duplicates of
`libs` by name, first occurrence kept. -/
def LdFlags.make (libDirs libs others : List String) : LdFlags :=
  { libDirs := libDirs, libs := dedupLibs [] libs, others := others }

/-- `LdFlags::merge` (Compiler.cc:132): concatenate `libDirs` and
`others`; append the other bundle's libs whose names are not already
present. -/
def LdFlags.merge (a other : LdFlags) : LdFlags :=
  { libDirs := a.libDirs ++ other.libDirs,
    libs := a.libs ++ dedupLibs a.libs other.libs,
    others := a.others ++ other.others }

/-- `CFlags` (macros, includeDirs, others). -/
structure CFlags where
  macros : List (String × String)
  includeDirs : List String
  others : List String
deriving DecidableEq, Repr

/-- `CFlags::merge` (Compiler.cc:70): plain concatenation of all three
lists, no deduplication. -/
def CFlags.merge (a other : CFlags) : CFlags :=
  { macros := a.macros ++ other.macros,
    includeDirs := a.includeDirs ++ other.includeDirs,
    others := a.others ++ other.others }

/-- The space-splitting loop of `LdFlags::parsePkgConfig`
(Compiler.cc:98-114): accumulate non-space characters, flush on a
space when the current flag is nonempty, flush the final flag. -/
def splitFlags (cur : List Char) : List Char → List (List Char)
  | [] => if cur.isEmpty then [] else [cur]
  | c :: rest =>
    if c ≠ ' ' then splitFlags (cur ++ [c]) rest
    else if cur.isEmpty then splitFlags [] rest
    else cur :: splitFlags [] rest

/-- `parseLdFlag` (Compiler.cc:88) folded over all flags: classify
into `-L` lib dirs, `-l` libs, and everything else, keeping order
within each class. -/
def classifyLdFlags : List String → List String × List String × List String
  | [] => ([], [], [])
  | flag :: rest =>
    let (dirs, libs, others) := classifyLdFlags rest
    if flag.startsWith "-L" then ((flag.drop 2) :: dirs, libs, others)
    else if flag.startsWith "-l" then (dirs, (flag.drop 2) :: libs, others)
    else (dirs, libs, flag :: others)

/-- `LdFlags::parsePkgConfig` (Compiler.cc:77) applied to the captured
`pkg-config --libs` output (the subprocess invocation itself is an
external interface): drop the trailing newline, split on spaces,
classify, and build the bundle through the deduplicating constructor. -/
def parseLdFlagsOutput (output : List Char) : LdFlags :=
  let flags := (splitFlags [] output.dropLast).map String.mk
  let (dirs, libs, others) := classifyLdFlags flags
  LdFlags.make dirs libs others

/-- The first-occurrence filter described by the spec: keep exactly
the elements that are the first occurrence of their name, in order. -/
def firstOccurrences (l : List String) : List String :=
  (l.enum.filter fun p => l.indexOf p.2 = p.1).map Prod.snd

/-! ### Topological sort (Algos.hpp, lines 106-156) and Makefile
emission (BuildConfig.cc, lines 59-227)

The C++ code keeps the node map and the adjacency map in
`unordered_map`s, whose iteration order is unspecified.  The model
takes those iteration orders as explicit list parameters: `nodes` is
the key iteration order of the node map `list` (only keys and the
size of `list` are used by `topoSort`), `adj` is the adjacency
association list (edge processing is order-independent), and
`seedOrder` is the iteration order of the freshly built `inDegree`
map used to seed the queue.  The theorems quantify over all
permutations, covering every behavior the C++ code can exhibit.

In-degrees are stored in `u32`; increments and decrements wrap modulo
`2^32` (iterated wrap-increment from zero equals the total count
modulo `2^32`). -/

/-- `2^32`, the modulus of the `u32` in-degree counters. -/
def degMod : Nat := 4294967296

/-- Association-list lookup (`HashMap::contains` / `at`). -/
def lookupVal {α : Type} (m : List (String × α)) (k : String) : Option α :=
  (m.find? fun p => decide (p.1 = k)).map Prod.snd

/-- The in-degree of `v` after the edge-processing loop of `topoSort`
(Algos.hpp:110-124): every key of `list` starts at zero; edges whose
source is not a key of `list` are ignored; each kept occurrence of
`v` as a neighbor wrap-increments the counter. -/
def inDegree (nodes : List String) (adj : List (String × List String))
    (v : String) : Nat :=
  (((adj.filter fun p => decide (p.1 ∈ nodes)).map fun p => p.2.count v).sum)
    % degMod

/-- The keys of the `inDegree` map: the keys of `list`, then every
neighbor of a kept edge first touched by `inDegree[neighbor]++`. -/
def inDegKeys (nodes : List String) (adj : List (String × List String)) :
    List String :=
  (adj.filter fun p => decide (p.1 ∈ nodes)).foldl
    (fun ks p => p.2.foldl (fun ks v => if v ∈ ks then ks else ks ++ [v]) ks)
    nodes

/-- A wrapping `u32` decrement. -/
def wrapDec (n : Nat) : Nat := (n + (degMod - 1)) % degMod

/-- Processing one popped node (Algos.hpp:139-148): if the node has no
adjacency entry there is nothing to do; otherwise decrement each
neighbor in order, enqueueing the ones that reach zero. -/
def kahnStep (adj : List (String × List String)) (u : String)
    (deg : String → Nat) : (String → Nat) × List String :=
  match lookupVal adj u with
  | none => (deg, []) -- No dependencies
  | some ns =>
    ns.foldl
      (fun acc v =>
        let d := wrapDec (acc.1 v)
        ((fun x => if x = v then d else acc.1 x),
         if d = 0 then acc.2 ++ [v] else acc.2))
      (deg, [])

/-- The queue-draining loop of `topoSort` (Algos.hpp:134-149).  The
fuel argument only bounds the recursion; the loop always terminates by
queue exhaustion (each queue entry is popped once and the number of
enqueues is bounded by the nodes plus the total adjacency length). -/
def kahnLoop (adj : List (String × List String)) :
    Nat → List String → (String → Nat) → List String → List String
  | 0, _, _, res => res
  | _ + 1, [], _, res => res
  | fuel + 1, u :: q, deg, res =>
    let step := kahnStep adj u deg
    kahnLoop adj fuel (q ++ step.2) step.1 (res ++ [u])

/-- Total length of all adjacency lists. -/
def totalAdjLen (adj : List (String × List String)) : Nat :=
  (adj.map fun p => p.2.length).sum

/-- `topoSort` (Algos.hpp:106): Kahn's algorithm; fails with
`too complex build graph` when fewer nodes than the size of `list`
were emitted. -/
def topoSort (nodes : List String) (adj : List (String × List String))
    (seedOrder : List String) : Except String (List String) :=
  let deg := inDegree nodes adj
  let seeds := seedOrder.filter fun v => deg v == 0
  let res := kahnLoop adj (nodes.length + totalAdjLen adj + 1) seeds deg []
  if res.length = nodes.length then .ok res
  else .error "too complex build graph" -- Cycle detected

/-- `VarType` (BuildConfig.cc:59). -/
inductive VarType where
  | recursive -- =
  | simple    -- :=
  | cond      -- ?=
  | append    -- +=
  | shell     -- !=
deriving DecidableEq, Repr

/-- `operator<<(std::ostream&, VarType)` (BuildConfig.cc:67). -/
def VarType.render : VarType → String
  | .recursive => "="
  | .simple => ":="
  | .cond => "?="
  | .append => "+="
  | .shell => "!="

/-- `Variable` (BuildConfig.cc:88). -/
structure Variable where
  value : String
  type : VarType
deriving DecidableEq, Repr

/-- `Target` (BuildConfig.cc:98); `dependsOn` is an `OrderedHashSet`,
an insertion-ordered duplicate-free sequence. -/
structure Target where
  commands : List String
  dependsOn : List String
deriving DecidableEq, Repr

/-- `BuildConfig` (BuildConfig.cc:103): node maps plus
reverse-dependency maps, kept here as insertion-ordered association
lists. -/
structure BuildConfig where
  vars : List (String × Variable) := [] -- `variables` in the C++ (reserved word here)
  varDeps : List (String × List String) := []
  targets : List (String × Target) := []
  targetDeps : List (String × List String) := []
  phony : Option Target := none
  all : Option Target := none
deriving Repr

/-- `map[key] = value` on an association list. -/
def upsert {α : Type} (m : List (String × α)) (k : String) (v : α) :
    List (String × α) :=
  if m.any (fun p => decide (p.1 = k)) then
    m.map fun p => if p.1 = k then (k, v) else p
  else m ++ [(k, v)]

/-- `adj[dep].push_back(name)` on an association list. -/
def pushDep (adj : List (String × List String)) (dep name : String) :
    List (String × List String) :=
  if adj.any (fun p => decide (p.1 = dep)) then
    adj.map fun p => if p.1 = dep then (p.1, p.2 ++ [name]) else p
  else adj ++ [(dep, [name])]

/-- `BuildConfig::defineVariable` (BuildConfig.cc:137): register the
variable and a reverse-dependency edge for each dependency. -/
def BuildConfig.defineVariable (cfg : BuildConfig) (name : String)
    (v : Variable) (dependsOn : List String) : BuildConfig :=
  { cfg with
    vars := upsert cfg.vars name v,
    varDeps := dependsOn.foldl (fun a dep => pushDep a dep name) cfg.varDeps }

/-- `BuildConfig::defineSimpleVariable` (BuildConfig.cc:147). -/
def BuildConfig.defineSimpleVariable (cfg : BuildConfig)
    (name value : String) (dependsOn : List String) : BuildConfig :=
  cfg.defineVariable name ⟨value, .simple⟩ dependsOn

/-- `BuildConfig::defineTarget` (BuildConfig.cc:160). -/
def BuildConfig.defineTarget (cfg : BuildConfig) (name : String)
    (commands : List String) (dependsOn : List String) : BuildConfig :=
  { cfg with
    targets := upsert cfg.targets name ⟨commands, dependsOn⟩,
    targetDeps :=
      dependsOn.foldl (fun a dep => pushDep a dep name) cfg.targetDeps }

/-- `emitTarget` (BuildConfig.cc:181): `name: dep1 dep2 …` wrapped at
~80 columns with padded ` \`-continuations, then one tab-indented line
per command, then a blank line. -/
def emitTarget (target : String) (dependsOn : List String)
    (commands : List String) : String :=
  let step := fun (acc : String × Nat) (dep : String) =>
    if acc.2 + dep.length + 2 > 80 then
      -- std::setw(83 - offset) left-pads the 4-character " \\\n "
      let pad := (83 - acc.2) - 4
      (acc.1 ++ String.mk (List.replicate pad ' ') ++ " \\\n " ++ " " ++ dep,
       2 + (dep.length + 1))
    else (acc.1 ++ " " ++ dep, acc.2 + (dep.length + 1))
  let deps := dependsOn.foldl step (target ++ ":", target.length + 2)
  deps.1 ++ "\n" ++ String.join (commands.map fun cmd => "\t" ++ cmd ++ "\n")
    ++ "\n"

/-- `BuildConfig::emitMakefile` (BuildConfig.cc:208): variables in
topological order, a separating blank line, `.PHONY`, `all`, then real
targets in reverse topological order.  The `at()` lookups cannot miss
(the sorted names are keys of the maps); they are rendered with a
vacuous default. -/
def BuildConfig.emitMakefile (cfg : BuildConfig)
    (varOrder seedV tgtOrder seedT : List String) : Except String String :=
  match topoSort varOrder cfg.varDeps seedV with
  | .error e => .error e
  | .ok sortedVars =>
    let varText := String.join (sortedVars.map fun n =>
      n ++ " " ++
        ((lookupVal cfg.vars n).elim ""
          fun v => v.type.render ++ " " ++ v.value) ++ "\n")
    let sep :=
      if !sortedVars.isEmpty ∧ !cfg.targets.isEmpty then "\n" else ""
    let phonyText := cfg.phony.elim "" fun t => emitTarget ".PHONY" t.dependsOn []
    let allText := cfg.all.elim "" fun t => emitTarget "all" t.dependsOn []
    match topoSort tgtOrder cfg.targetDeps seedT with
    | .error e => .error e
    | .ok sortedTargets =>
      let tgtText := String.join (sortedTargets.reverse.map fun n =>
        (lookupVal cfg.targets n).elim ""
          fun t => emitTarget n t.dependsOn t.commands)
      .ok (varText ++ sep ++ phonyText ++ allText ++ tgtText)

/-- The three-variable chain of spec scenario 6: `c := 3` depending on
`b`, `b := 2` depending on `a`, `a := 1`. -/
def varChainConfig : BuildConfig :=
  ((({} : BuildConfig).defineSimpleVariable "c" "3"
      ["b"]).defineSimpleVariable "b" "2" ["a"]).defineSimpleVariable "a" "1" []

/-- The three-target chain of spec scenario 7: `c (echo c, deps b)`,
`b (echo b, deps a)`, `a (echo a)`. -/
def targetChainConfig : BuildConfig :=
  ((({} : BuildConfig).defineTarget "c" ["echo c"]
      ["b"]).defineTarget "b" ["echo b"] ["a"]).defineTarget "a" ["echo a"] []

/-! ## Theorems -/

/-! ### C10: empty test-profile flag lists never clear the Dev flags -/

/-- C10: whenever `[profile.test]` declares an empty or absent
`cxxflags` / `ldflags` list, the Dev profile's flag list is used
unchanged regardless of inherit-mode; in particular
`inherit-mode = "overwrite"` with an empty list never clears the
flags inherited from Dev. -/
theorem c10_empty_test_flags_keep_dev (mode : InheritMode)
    (devFlags : List String) (declared : Option (List String))
    (h : declared = none ∨ declared = some []) :
    testProfileFlagList mode devFlags declared = devFlags ∧
    inheritFlags InheritMode.overwrite devFlags [] = devFlags := by
  refine ⟨?_, rfl⟩
  rcases h with h | h <;> subst h <;> rfl

/-- Witness for C10 at `inherit-mode = "overwrite"`, Dev flags
`["-O2", "-g"]`, absent test list. -/
theorem c10_empty_test_flags_keep_dev_witness :
    ((none : Option (List String)) = none ∨
      (none : Option (List String)) = some []) ∧
    (testProfileFlagList InheritMode.overwrite ["-O2", "-g"] none
        = ["-O2", "-g"] ∧
      inheritFlags InheritMode.overwrite ["-O2", "-g"] [] = ["-O2", "-g"]) :=
  ⟨Or.inl rfl,
   c10_empty_test_flags_keep_dev InheritMode.overwrite ["-O2", "-g"] none
     (Or.inl rfl)⟩

/-! ### C7: child-process environment construction -/

/-- C7 counterexample: the claim says an inherited variable is dropped
exactly when its *name equals* the name of some explicit entry; the
code drops by *prefix* match (`env.starts_with(name)`), so the
inherited `FOO=x` is dropped by the explicit `FOOBAR=1` even though
the names `FOO` and `FOOBAR` differ. -/
theorem c7_child_env_counterexample :
    childEnvs ["FOOBAR=1"] ["FOO=x"] = ["FOOBAR=1"] ∧
    childEnvsSpec ["FOOBAR=1"] ["FOO=x"] = ["FOOBAR=1", "FOO=x"] ∧
    childEnvs ["FOOBAR=1"] ["FOO=x"] ≠ childEnvsSpec ["FOOBAR=1"] ["FOO=x"] := by
  refine ⟨by decide, by decide, by decide⟩

/-- C7 (amended): the child environment is the explicit entries
followed by the surviving inherited entries; an inherited entry
survives iff its name (the characters before the first `=`) is a
prefix of no explicit entry, and it is dropped whenever some explicit
entry's name equals its name (name equality is a special case of the
prefix test). -/
theorem c7_child_env_prefix_drop (environment inherited : List String)
    (e : String) (he : e ∈ inherited) :
    childEnvs environment inherited
      = environment ++ inherited.filter (notOverriden environment) ∧
    (e ∈ inherited.filter (notOverriden environment) ↔
      ∀ x ∈ environment, ¬ (envName e).data.IsPrefix x.data) ∧
    ((∃ x ∈ environment, envName x = envName e) →
      e ∉ inherited.filter (notOverriden environment)) := by
  have key : ∀ x, notOverriden environment x = true ↔
      ∀ y ∈ environment, ¬ (envName x).data.IsPrefix y.data := by
    intro x
    simp only [notOverriden, List.all_eq_true, strStartsWith, Bool.not_eq_true',
      Bool.eq_false_iff, ne_eq, List.isPrefixOf_iff_prefix]
  refine ⟨rfl, ?_, ?_⟩
  · rw [List.mem_filter]
    simp only [he, true_and]
    exact key e
  · rintro ⟨x, hx, hname⟩ hmem
    rw [List.mem_filter, key e] at hmem
    refine hmem.2 x hx ?_
    have hp : (envName x).data <+: x.data := by
      simpa [envName] using List.takeWhile_prefix (l := x.data) (· ≠ '=')
    rwa [hname] at hp

/-- Witness for C7 at explicit `["PATH=/bin"]`, inherited
`["PATH=/usr/bin", "HOME=/root"]`, probing entry `HOME=/root`. -/
theorem c7_child_env_prefix_drop_witness :
    ("HOME=/root" ∈ ["PATH=/usr/bin", "HOME=/root"]) ∧
    (childEnvs ["PATH=/bin"] ["PATH=/usr/bin", "HOME=/root"]
        = ["PATH=/bin"] ++
          (["PATH=/usr/bin", "HOME=/root"].filter (notOverriden ["PATH=/bin"])) ∧
      ("HOME=/root" ∈
          ["PATH=/usr/bin", "HOME=/root"].filter (notOverriden ["PATH=/bin"]) ↔
        ∀ x ∈ ["PATH=/bin"], ¬ (envName "HOME=/root").data.IsPrefix x.data) ∧
      ((∃ x ∈ ["PATH=/bin"], envName x = envName "HOME=/root") →
        "HOME=/root" ∉
          ["PATH=/usr/bin", "HOME=/root"].filter (notOverriden ["PATH=/bin"]))) :=
  ⟨by decide,
   c7_child_env_prefix_drop ["PATH=/bin"] ["PATH=/usr/bin", "HOME=/root"]
     "HOME=/root" (by decide)⟩

/-! ### C3: `Edition::tryFromString` -/

/-- C3 counterexample: the claim says the numeric string `26` is
accepted (with `2c` as its alias); the code has no `"26"` case —
C++26 is only spelled `2c` — so `tryFromString "26"` fails. -/
theorem c3_edition_counterexample :
    Edition.tryFromString "26" = .error "invalid edition" ∧
    (Edition.tryFromString "26").isOk = false := by
  refine ⟨rfl, rfl⟩

/-- C3 (amended): `tryFromString` accepts exactly
`{98, 03, 11, 14, 17, 20, 23}` together with the aliases
`0x, 1y, 1z, 2a, 2b` and the string `2c` (the sole spelling of
C++26).  The first conjunct pins the exact parse result of each of the
13 accepted strings, so each alias yields the same `EditionYear` as
its numeric counterpart (editions compare ignoring the stored string),
and the resulting years `1998 < 2003 < 2011 < 2014 < 2017 < 2020 <
2023 < 2026` realize the release order; an input parses successfully
iff it is one of the 13 strings; and every other input — including
`26` — fails with the error `invalid edition`. -/
theorem c3_edition_try_from_string :
    (Edition.tryFromString "98" = .ok ⟨.cpp98, "98"⟩ ∧
      Edition.tryFromString "03" = .ok ⟨.cpp03, "03"⟩ ∧
      Edition.tryFromString "0x" = .ok ⟨.cpp11, "0x"⟩ ∧
      Edition.tryFromString "11" = .ok ⟨.cpp11, "11"⟩ ∧
      Edition.tryFromString "1y" = .ok ⟨.cpp14, "1y"⟩ ∧
      Edition.tryFromString "14" = .ok ⟨.cpp14, "14"⟩ ∧
      Edition.tryFromString "1z" = .ok ⟨.cpp17, "1z"⟩ ∧
      Edition.tryFromString "17" = .ok ⟨.cpp17, "17"⟩ ∧
      Edition.tryFromString "2a" = .ok ⟨.cpp20, "2a"⟩ ∧
      Edition.tryFromString "20" = .ok ⟨.cpp20, "20"⟩ ∧
      Edition.tryFromString "2b" = .ok ⟨.cpp23, "2b"⟩ ∧
      Edition.tryFromString "23" = .ok ⟨.cpp23, "23"⟩ ∧
      Edition.tryFromString "2c" = .ok ⟨.cpp26, "2c"⟩) ∧
    (∀ s : String, (Edition.tryFromString s).isOk = true ↔
      s ∈ ["98", "03", "0x", "11", "1y", "14", "1z", "17", "2a", "20",
           "2b", "23", "2c"]) ∧
    (∀ s : String,
      s ∉ ["98", "03", "0x", "11", "1y", "14", "1z", "17", "2a", "20",
           "2b", "23", "2c"] →
      Edition.tryFromString s = .error "invalid edition") ∧
    ((Edition.tryFromString "0x").map Edition.edition
        = (Edition.tryFromString "11").map Edition.edition ∧
      (Edition.tryFromString "1y").map Edition.edition
        = (Edition.tryFromString "14").map Edition.edition ∧
      (Edition.tryFromString "1z").map Edition.edition
        = (Edition.tryFromString "17").map Edition.edition ∧
      (Edition.tryFromString "2a").map Edition.edition
        = (Edition.tryFromString "20").map Edition.edition ∧
      (Edition.tryFromString "2b").map Edition.edition
        = (Edition.tryFromString "23").map Edition.edition) ∧
    ((Edition.tryFromString "98").map (fun e => e.edition.year) = .ok 1998 ∧
      (Edition.tryFromString "03").map (fun e => e.edition.year) = .ok 2003 ∧
      (Edition.tryFromString "11").map (fun e => e.edition.year) = .ok 2011 ∧
      (Edition.tryFromString "14").map (fun e => e.edition.year) = .ok 2014 ∧
      (Edition.tryFromString "17").map (fun e => e.edition.year) = .ok 2017 ∧
      (Edition.tryFromString "20").map (fun e => e.edition.year) = .ok 2020 ∧
      (Edition.tryFromString "23").map (fun e => e.edition.year) = .ok 2023 ∧
      (Edition.tryFromString "2c").map (fun e => e.edition.year) = .ok 2026 ∧
      1998 < 2003 ∧ 2003 < 2011 ∧ 2011 < 2014 ∧ 2014 < 2017 ∧
      2017 < 2020 ∧ 2020 < 2023 ∧ 2023 < 2026) := by
  refine ⟨⟨rfl, rfl, rfl, rfl, rfl, rfl, rfl, rfl, rfl, rfl, rfl, rfl, rfl⟩,
    ?_, ?_,
    ⟨rfl, rfl, rfl, rfl, rfl⟩,
    ⟨rfl, rfl, rfl, rfl, rfl, rfl, rfl, rfl, by decide⟩⟩
  · intro s
    unfold Edition.tryFromString
    split_ifs <;> simp_all [Except.isOk, Except.toBool] <;> tauto
  · intro s hs
    unfold Edition.tryFromString
    split_ifs <;> simp_all

/-- Witness for C3 at the accepted input `"98"` and the rejected
input `"hello"`. -/
theorem c3_edition_try_from_string_witness :
    Edition.tryFromString "98" = .ok ⟨.cpp98, "98"⟩ ∧
    ((Edition.tryFromString "17").isOk = true ↔
      "17" ∈ ["98", "03", "0x", "11", "1y", "14", "1z", "17", "2a", "20",
              "2b", "23", "2c"]) ∧
    Edition.tryFromString "hello" = .error "invalid edition" :=
  ⟨c3_edition_try_from_string.1.1,
   c3_edition_try_from_string.2.1 "17",
   c3_edition_try_from_string.2.2.1 "hello" (by decide)⟩

/-! ### C8: library deduplication in flag bundles -/

/-- `firstOccurrences` relative to an already-seen set. -/
def firstOccurrencesFrom (seen : List String) (l : List String) : List String :=
  (l.enum.filter fun p => decide (p.2 ∉ seen) && decide (l.indexOf p.2 = p.1)).map
    Prod.snd

theorem firstOccurrencesFrom_cons (seen : List String) (x : String)
    (xs : List String) :
    firstOccurrencesFrom seen (x :: xs) =
      if x ∈ seen then firstOccurrencesFrom seen xs
      else x :: firstOccurrencesFrom (x :: seen) xs := by
  unfold firstOccurrencesFrom
  rw [List.enum_cons', List.filter_cons, List.filter_map]
  by_cases hx : x ∈ seen
  · have hcond : (decide (x ∉ seen) && decide ((x :: xs).indexOf x = 0)) = false := by
      simp [hx]
    rw [hcond, if_neg (by simp), if_pos hx, List.map_map]
    have hcomp : Prod.snd ∘ Prod.map (fun n => n + 1) (id (α := String))
        = Prod.snd := by
      funext p
      rfl
    rw [hcomp]
    congr 1
    apply List.filter_congr
    intro ⟨i, y⟩ _
    by_cases hyx : y = x
    · simp [hyx, hx]
    · have hbeq : (x == y) = false := beq_eq_false_iff_ne.2 (Ne.symm hyx)
      simp [Function.comp, Prod.map, List.indexOf_cons, hbeq, Nat.succ_inj]
  · have hhead : (decide (x ∉ seen) && decide ((x :: xs).indexOf x = 0)) = true := by
      simp [hx, List.indexOf_cons_self]
    rw [if_pos hhead, if_neg hx]
    simp only [List.map_cons]
    congr 1
    rw [List.map_map]
    have hcomp : Prod.snd ∘ Prod.map (fun n => n + 1) (id (α := String))
        = Prod.snd := by
      funext p
      rfl
    rw [hcomp]
    congr 1
    apply List.filter_congr
    intro ⟨i, y⟩ _
    by_cases hyx : y = x
    · have hbeq : (x == y) = true := beq_iff_eq.mpr hyx.symm
      simp [Function.comp, Prod.map, List.indexOf_cons, hbeq, hyx]
    · have hbeq : (x == y) = false := beq_eq_false_iff_ne.2 (Ne.symm hyx)
      simp [Function.comp, Prod.map, List.indexOf_cons, hbeq, Nat.succ_inj, hyx]

theorem dedupLibs_congr (s₁ s₂ : List String) (l : List String)
    (h : ∀ x, x ∈ s₁ ↔ x ∈ s₂) : dedupLibs s₁ l = dedupLibs s₂ l := by
  induction l generalizing s₁ s₂ with
  | nil => rfl
  | cons x xs ih =>
    simp only [dedupLibs]
    by_cases hx : x ∈ s₁
    · rw [if_pos hx, if_pos ((h x).1 hx)]
      exact ih s₁ s₂ h
    · rw [if_neg hx, if_neg (fun hx2 => hx ((h x).2 hx2))]
      rw [ih (x :: s₁) (x :: s₂) (by intro y; simp [h y])]

theorem dedupLibs_eq_firstOccurrencesFrom (l : List String)
    (seen : List String) : dedupLibs seen l = firstOccurrencesFrom seen l := by
  induction l generalizing seen with
  | nil => rfl
  | cons x xs ih =>
    rw [firstOccurrencesFrom_cons]
    simp only [dedupLibs]
    by_cases hx : x ∈ seen
    · rw [if_pos hx, if_pos hx, ih]
    · rw [if_neg hx, if_neg hx, ih]

theorem firstOccurrences_eq_from_nil (l : List String) :
    firstOccurrences l = firstOccurrencesFrom [] l := by
  unfold firstOccurrences firstOccurrencesFrom
  congr 1

theorem dedupLibs_append (seen l₁ l₂ : List String) :
    dedupLibs seen (l₁ ++ l₂) =
      dedupLibs seen l₁ ++ dedupLibs (l₁ ++ seen) l₂ := by
  induction l₁ generalizing seen with
  | nil => rfl
  | cons x xs ih =>
    simp only [List.cons_append, dedupLibs, List.append_eq]
    by_cases hx : x ∈ seen
    · rw [if_pos hx, if_pos hx, ih]
      congr 1
      apply dedupLibs_congr
      intro y
      simp only [List.mem_append, List.mem_cons]
      constructor
      · tauto
      · rintro (rfl | hy | hy)
        · exact Or.inr hx
        · exact Or.inl hy
        · exact Or.inr hy
    · rw [if_neg hx, if_neg hx, ih]
      simp only [List.cons_append]
      congr 2
      apply dedupLibs_congr
      intro y
      simp only [List.mem_append, List.mem_cons]
      tauto

theorem dedupLibs_eq_self (l seen : List String) (hl : l.Nodup)
    (hseen : ∀ x ∈ l, x ∉ seen) : dedupLibs seen l = l := by
  induction l generalizing seen with
  | nil => rfl
  | cons x xs ih =>
    simp only [dedupLibs, if_neg (hseen x (List.mem_cons_self x xs))]
    rw [ih (x :: seen) (List.Nodup.of_cons hl)]
    intro y hy
    simp only [List.mem_cons, not_or]
    exact ⟨fun h => (List.nodup_cons.1 hl).1 (h ▸ hy), hseen y (List.mem_cons_of_mem x hy)⟩

theorem dedupLibs_not_mem_seen (l seen : List String) (x : String)
    (hx : x ∈ dedupLibs seen l) : x ∉ seen := by
  induction l generalizing seen with
  | nil => simp [dedupLibs] at hx
  | cons y ys ih =>
    simp only [dedupLibs] at hx
    by_cases hy : y ∈ seen
    · rw [if_pos hy] at hx
      exact ih seen hx
    · rw [if_neg hy] at hx
      rcases List.mem_cons.1 hx with h | h
      · exact h ▸ hy
      · intro hxs
        exact ih (y :: seen) h (List.mem_cons_of_mem y hxs)

theorem dedupLibs_nodup (l seen : List String) : (dedupLibs seen l).Nodup := by
  induction l generalizing seen with
  | nil => exact List.nodup_nil
  | cons x xs ih =>
    simp only [dedupLibs]
    by_cases hx : x ∈ seen
    · rw [if_pos hx]; exact ih seen
    · rw [if_neg hx]
      refine List.nodup_cons.2 ⟨?_, ih (x :: seen)⟩
      intro hmem
      exact dedupLibs_not_mem_seen xs (x :: seen) x hmem (List.mem_cons_self x seen)

/-- C8: parsing `pkg-config --libs` output and merging `LdFlags`
bundles deduplicate `-l` libraries by name, keeping only the first
occurrence in first-seen order (also across merged bundles), while
library directories and "other" linker flags — and, on the compile
side, include directories, macros and "other" cxxflags — are
concatenated without any deduplication. -/
theorem c8_lib_dedup_first_seen (out : List Char) (a b : LdFlags)
    (cf df : CFlags) (dirs libs others : List String)
    (ha : a.libs.Nodup) :
    LdFlags.make dirs libs others
        = ⟨dirs, firstOccurrences libs, others⟩ ∧
    parseLdFlagsOutput out
        = LdFlags.make
            (classifyLdFlags ((splitFlags [] out.dropLast).map String.mk)).1
            (classifyLdFlags ((splitFlags [] out.dropLast).map String.mk)).2.1
            (classifyLdFlags ((splitFlags [] out.dropLast).map String.mk)).2.2 ∧
    (a.merge b).libDirs = a.libDirs ++ b.libDirs ∧
    (a.merge b).others = a.others ++ b.others ∧
    (a.merge b).libs = firstOccurrences (a.libs ++ b.libs) ∧
    (a.merge b).libs.Nodup ∧
    cf.merge df
        = ⟨cf.macros ++ df.macros, cf.includeDirs ++ df.includeDirs,
           cf.others ++ df.others⟩ := by
  have hmake : LdFlags.make dirs libs others = ⟨dirs, firstOccurrences libs, others⟩ := by
    unfold LdFlags.make
    rw [dedupLibs_eq_firstOccurrencesFrom, firstOccurrences_eq_from_nil]
  have hmerge : (a.merge b).libs = firstOccurrences (a.libs ++ b.libs) := by
    unfold LdFlags.merge
    simp only
    rw [firstOccurrences_eq_from_nil, ← dedupLibs_eq_firstOccurrencesFrom,
      dedupLibs_append, dedupLibs_eq_self a.libs [] ha (by simp)]
    congr 1
    apply dedupLibs_congr
    intro y
    simp
  refine ⟨hmake, rfl, rfl, rfl, hmerge, ?_, rfl⟩
  · unfold LdFlags.merge
    simp only
    refine List.Nodup.append ha (dedupLibs_nodup _ _) ?_
    intro x hx₁ hx₂
    exact dedupLibs_not_mem_seen _ _ x hx₂ hx₁

/-- Witness for C8 at a concrete pkg-config output and two concrete
bundles with a shared library name. -/
theorem c8_lib_dedup_first_seen_witness :
    (["foo", "bar", "foo"] : List String).Nodup = False ∨
    ((LdFlags.mk ["d1"] ["foo", "bar"] ["-pthread"]).libs.Nodup ∧
      ((LdFlags.mk ["d1"] ["foo", "bar"] ["-pthread"]).merge
          (LdFlags.mk ["d1"] ["baz", "foo"] ["-pthread"])).libs
        = firstOccurrences
            (["foo", "bar"] ++ ["baz", "foo"])) := by
  refine Or.inr ⟨by decide, ?_⟩
  have h := c8_lib_dedup_first_seen "-lfoo\n".data
    (LdFlags.mk ["d1"] ["foo", "bar"] ["-pthread"])
    (LdFlags.mk ["d1"] ["baz", "foo"] ["-pthread"])
    ⟨[], [], []⟩ ⟨[], [], []⟩ [] [] [] (by decide)
  exact h.2.2.2.2.1

/-! ### C2: prerelease gating in `VersionReq::satisfiedBy` -/

theorem prerelease_isEmpty_false_iff (l : Prerelease) :
    (List.isEmpty l = false) ↔ l ≠ [] := by
  cases l <;> simp

/-- C2: for a version with nonempty prerelease, `satisfiedBy` holds
only if both comparators accept it and some comparator of the
requirement names the same `(major, minor, patch)` (explicitly
present) with a nonempty prerelease; for a version with empty
prerelease, `satisfiedBy` holds iff the left comparator and, when
present, the right comparator accept it. -/
theorem c2_prerelease_satisfaction (r : VersionReq) (v : Version) :
    (v.pre ≠ [] →
      r.satisfiedBy v = true →
        r.left.satisfiedBy v = true ∧
        (∀ rc, r.right = some rc → rc.satisfiedBy v = true) ∧
        (preIsCompatible r.left v = true ∨
          ∃ rc, r.right = some rc ∧ preIsCompatible rc v = true)) ∧
    (v.pre = [] →
      (r.satisfiedBy v = true ↔
        r.left.satisfiedBy v = true ∧
        ∀ rc, r.right = some rc → rc.satisfiedBy v = true)) := by
  obtain ⟨left, right⟩ := r
  cases right with
  | none =>
    cases hls : left.satisfiedBy v <;>
      cases hpc : preIsCompatible left v <;>
        cases hemp : List.isEmpty v.pre <;>
          simp_all [VersionReq.satisfiedBy, prerelease_isEmpty_false_iff]
  | some rc =>
    cases hls : left.satisfiedBy v <;>
      cases hrs : rc.satisfiedBy v <;>
        cases hpc : preIsCompatible left v <;>
          cases hpcr : preIsCompatible rc v <;>
            cases hemp : List.isEmpty v.pre <;>
              simp_all [VersionReq.satisfiedBy, prerelease_isEmpty_false_iff]

/-- Witness for C2: the requirement `>=2.1.0-alpha2` and the
prerelease version `2.1.0-alpha3`. -/
theorem c2_prerelease_satisfaction_witness :
    ((⟨2, 1, 0, [.alnum "alpha3"]⟩ : Version).pre = [] →
      ((VersionReq.mk ⟨some .gte, 2, some 1, some 0, [.alnum "alpha2"]⟩
          none).satisfiedBy ⟨2, 1, 0, [.alnum "alpha3"]⟩ = true ↔
        (Comparator.mk (some .gte) 2 (some 1) (some 0)
            [.alnum "alpha2"]).satisfiedBy ⟨2, 1, 0, [.alnum "alpha3"]⟩
          = true ∧
        ∀ rc, (none : Option Comparator) = some rc →
          rc.satisfiedBy ⟨2, 1, 0, [.alnum "alpha3"]⟩ = true)) ∧
    (((⟨2, 1, 0, [.alnum "alpha3"]⟩ : Version).pre ≠ []) ∧
      (VersionReq.mk ⟨some .gte, 2, some 1, some 0, [.alnum "alpha2"]⟩
          none).satisfiedBy ⟨2, 1, 0, [.alnum "alpha3"]⟩ = true) ∧
    ((Comparator.mk (some .gte) 2 (some 1) (some 0)
        [.alnum "alpha2"]).satisfiedBy ⟨2, 1, 0, [.alnum "alpha3"]⟩ = true ∧
      (∀ rc, (none : Option Comparator) = some rc →
        rc.satisfiedBy ⟨2, 1, 0, [.alnum "alpha3"]⟩ = true) ∧
      (preIsCompatible ⟨some .gte, 2, some 1, some 0, [.alnum "alpha2"]⟩
          ⟨2, 1, 0, [.alnum "alpha3"]⟩ = true ∨
        ∃ rc, (none : Option Comparator) = some rc ∧
          preIsCompatible rc ⟨2, 1, 0, [.alnum "alpha3"]⟩ = true)) :=
  ⟨(c2_prerelease_satisfaction
      ⟨⟨some .gte, 2, some 1, some 0, [.alnum "alpha2"]⟩, none⟩
      ⟨2, 1, 0, [.alnum "alpha3"]⟩).2,
   ⟨by decide, by decide⟩,
   (c2_prerelease_satisfaction
      ⟨⟨some .gte, 2, some 1, some 0, [.alnum "alpha2"]⟩, none⟩
      ⟨2, 1, 0, [.alnum "alpha3"]⟩).1 (by decide) (by decide)⟩

/-! ### Parser facts -/

theorem takeWhile_stop {p : Char → Bool} (l : List Char) (c : Char)
    (h : l[(l.takeWhile p).length]? = some c) : p c = false := by
  induction l with
  | nil => simp at h
  | cons a as ih =>
    by_cases hpa : p a
    · rw [List.takeWhile_cons_of_pos hpa] at h
      simpa using ih (by simpa using h)
    · rw [List.takeWhile_cons_of_neg hpa] at h
      simp only [List.length_nil, List.getElem?_cons_zero, Option.some.injEq] at h
      subst h
      exact Bool.eq_false_iff.2 hpa

theorem skipWs_le (s : List Char) (pos : Nat) : pos ≤ skipWs s pos :=
  Nat.le_add_right _ _

theorem skipWs_not_space (s : List Char) (pos : Nat) (c : Char)
    (h : s[skipWs s pos]? = some c) : isCSpace c = false := by
  unfold skipWs at h
  by_cases hp : pos ≤ s.length
  · rw [← List.getElem?_drop] at h
    exact takeWhile_stop (s.drop pos) c h
  · exfalso
    have : s.length < pos := Nat.lt_of_not_le hp
    rw [List.getElem?_eq_none (by omega)] at h
    exact Option.noConfusion h

theorem takeWhile_cons_head {p : Char → Bool} (l : List Char) (a : Char)
    (t : List Char) (h : l.takeWhile p = a :: t) :
    l[0]? = some a ∧ p a = true := by
  cases l with
  | nil => simp at h
  | cons b bs =>
    by_cases hpb : p b
    · rw [List.takeWhile_cons_of_pos hpb] at h
      obtain ⟨rfl, -⟩ := List.cons.inj h
      exact ⟨by simp, hpb⟩
    · rw [List.takeWhile_cons_of_neg hpb] at h
      exact absurd h (List.noConfusion)

theorem skipWs_skipWs (s : List Char) (pos : Nat) :
    skipWs s (skipWs s pos) = skipWs s pos := by
  conv_lhs => rw [skipWs]
  cases hc : (s.drop (skipWs s pos)).takeWhile isCSpace with
  | nil => simp [hc]
  | cons a t =>
    exfalso
    obtain ⟨hhead, hsp⟩ := takeWhile_cons_head _ a t hc
    have hsome : s[skipWs s pos]? = some a := by
      rw [List.getElem?_drop] at hhead
      simpa using hhead
    have := skipWs_not_space s pos a hsome
    simp [hsp] at this

/-- The shape invariant of a lexed optional version: a patch needs a
minor, a prerelease needs a patch. -/
def optVerInv (v : OptVersion) : Prop :=
  (v.patch.isSome → v.minor.isSome) ∧ (v.pre ≠ [] → v.patch.isSome)

/-- The same invariant on a comparator. -/
def cmpInv (c : Comparator) : Prop :=
  (c.patch.isSome → c.minor.isSome) ∧ (c.pre ≠ [] → c.patch.isSome)

/-- A chainable (non-NoOp, non-Exact) operator. -/
def chainableOp (o : Option Op) : Prop :=
  o = some .gt ∨ o = some .gte ∨ o = some .lt ∨ o = some .lte

theorem fromOptVer_cmpInv (c₀ : Comparator) (v : OptVersion)
    (hv : optVerInv v) : cmpInv (c₀.fromOptVer v) :=
  ⟨hv.1, hv.2⟩

theorem lexVersionToken_inv (s : List Char) (pos : Nat) (v : OptVersion)
    (p : Nat) (h : lexVersionToken s pos = .ok (v, p)) : optVerInv v := by
  unfold lexVersionToken at h
  repeat' split at h
  all_goals simp only [reduceCtorEq, Except.ok.injEq, Prod.mk.injEq,
    false_and, and_false] at h
  all_goals obtain ⟨rfl, rfl⟩ := h
  all_goals simp [optVerInv]

theorem compLexNext_ver_inv (s : List Char) (pos : Nat) (v : OptVersion)
    (p : Nat) (h : compLexNext s pos = .ok (.ver v, p)) : optVerInv v := by
  unfold compLexNext at h
  repeat' split at h
  all_goals simp only [reduceCtorEq, Except.ok.injEq, Prod.mk.injEq,
    CompToken.ver.injEq, false_and, and_false] at h
  all_goals obtain ⟨rfl, rfl⟩ := h
  exact lexVersionToken_inv _ _ _ _ (by assumption)

theorem comparatorParse_inv (s : List Char) (pos : Nat) (c : Comparator)
    (p : Nat) (h : comparatorParse s pos = .ok (c, p)) : cmpInv c := by
  unfold comparatorParse at h
  repeat' split at h
  all_goals simp only [reduceCtorEq, Except.ok.injEq, Prod.mk.injEq,
    false_and, and_false] at h
  all_goals obtain ⟨rfl, rfl⟩ := h
  all_goals
    apply fromOptVer_cmpInv
    exact compLexNext_ver_inv _ _ _ _ (by assumption)

theorem comparatorParse_op_of_head (s : List Char) (pos : Nat) (c : Char)
    (cmp : Comparator) (p : Nat) (hc : s[pos]? = some c)
    (hgl : c = '>' ∨ c = '<') (h : comparatorParse s pos = .ok (cmp, p)) :
    chainableOp cmp.op := by
  have hlex : ∀ tok q, compLexNext s pos = .ok (tok, q) →
      tok = .gt ∨ tok = .gte ∨ tok = .lt ∨ tok = .lte := by
    intro tok q htok
    unfold compLexNext at htok
    rcases hgl with rfl | rfl <;>
      (repeat' split at htok) <;>
        simp only [reduceCtorEq, Except.ok.injEq, Prod.mk.injEq, false_and,
          and_false] at htok <;>
          (obtain ⟨rfl, rfl⟩ := htok; simp_all [isCompStart])
  unfold comparatorParse at h
  repeat' split at h
  all_goals simp only [reduceCtorEq, Except.ok.injEq, Prod.mk.injEq,
    false_and, and_false] at h
  all_goals obtain ⟨rfl, rfl⟩ := h
  all_goals
    rcases hlex _ _ (by assumption) with htk | htk | htk | htk <;>
      first
      | exact absurd htk (by simp)
      | (subst htk; simp_all [CompToken.toOp, Comparator.fromOptVer, chainableOp])

theorem chainableOp_of_not_noop_exact (o : Option Op)
    (h : ¬(o = none ∨ o = some .exact)) : chainableOp o := by
  cases o with
  | none => exact absurd (Or.inl rfl) h
  | some op => cases op <;> simp_all [chainableOp]

theorem reqLexNext_comp_inv (s : List Char) (pos : Nat) (c : Comparator)
    (q : Nat) (h : reqLexNext s pos = .ok (.comp c, q)) : cmpInv c := by
  unfold reqLexNext at h
  repeat' split at h
  all_goals simp only [reduceCtorEq, Except.ok.injEq, Prod.mk.injEq,
    ReqToken.comp.injEq, false_and, and_false] at h
  all_goals obtain ⟨rfl, rfl⟩ := h
  exact comparatorParse_inv _ _ _ _ (by assumption)

theorem reqParseCompOrOptVer_inv (s : List Char) (pos : Nat) (c : Comparator)
    (q : Nat) (h : reqParseCompOrOptVer s pos = .ok (c, q)) : cmpInv c := by
  unfold reqParseCompOrOptVer at h
  repeat' split at h
  all_goals simp only [reduceCtorEq, Except.ok.injEq, Prod.mk.injEq,
    false_and, and_false] at h
  all_goals obtain ⟨rfl, rfl⟩ := h
  exact reqLexNext_comp_inv _ _ _ _ (by assumption)

theorem reqParseComparator_inv (s : List Char) (pos : Nat) (c : Comparator)
    (q : Nat) (h : reqParseComparator s pos = .ok (c, q)) :
    cmpInv c ∧ chainableOp c.op := by
  unfold reqParseComparator at h
  split at h
  · exact absurd h (by simp)
  case h_2 ch hch =>
    split at h
    · exact absurd h (by simp)
    split at h
    · exact absurd h (by simp)
    rename_i hncs heq
    -- ch is '>' or '<'
    have hgl : ch = '>' ∨ ch = '<' := by
      simp only [Bool.not_eq_true', Bool.not_eq_false] at hncs
      simp only [isCompStart, Bool.or_eq_true, decide_eq_true_eq] at hncs
      tauto
    split at h
    · exact absurd h (by simp)
    case h_2 comp q' hlex =>
      simp only [Except.ok.injEq, Prod.mk.injEq] at h
      obtain ⟨rfl, rfl⟩ := h
      refine ⟨reqLexNext_comp_inv _ _ _ _ hlex, ?_⟩
      -- dig into the lexer to find the comparatorParse call
      unfold reqLexNext at hlex
      rw [skipWs_skipWs, hch] at hlex
      split at hlex
      · simp_all
      case h_2 ch' hch' =>
        obtain rfl := Option.some.inj hch'
        rw [if_pos (by rcases hgl with rfl | rfl <;> simp [isCompStart])]
          at hlex
        split at hlex
        · exact absurd hlex (by simp)
        case h_2 comp' q'' hcp =>
          simp only [Except.ok.injEq, Prod.mk.injEq, ReqToken.comp.injEq]
            at hlex
          obtain ⟨rfl, rfl⟩ := hlex
          exact comparatorParse_op_of_head _ _ _ _ _ hch hgl hcp
    case h_3 tok q' hlex =>
      exact absurd h (by simp)

theorem versionReqParse_inv (s : List Char) (r : VersionReq)
    (h : VersionReq.parse s = .ok r) :
    cmpInv r.left ∧
    ((r.left.op = none ∨ r.left.op = some .exact) → r.right = none) ∧
    (∀ rc, r.right = some rc →
      cmpInv rc ∧ chainableOp rc.op ∧ chainableOp r.left.op) := by
  unfold VersionReq.parse at h
  split at h
  · exact absurd h (by simp)
  case h_2 left p1 hleft =>
    have hlinv := reqParseCompOrOptVer_inv _ _ _ _ hleft
    split at h
    · -- NoOp or Exact
      split at h
      · exact absurd h (by simp)
      · simp only [Except.ok.injEq] at h
        subst h
        exact ⟨hlinv, fun _ => rfl, by simp⟩
    · -- chainable left
      rename_i hnops
      have hlchain := chainableOp_of_not_noop_exact _ hnops
      split at h
      · exact absurd h (by simp)
      · -- Eof
        simp only [Except.ok.injEq] at h
        subst h
        exact ⟨hlinv, fun hc => rfl, by simp⟩
      · -- And
        rename_i p2 hand
        split at h
        · exact absurd h (by simp)
        case h_2 right p3 hright =>
          have hrinv := reqParseComparator_inv _ _ _ _ hright
          split at h
          · exact absurd h (by simp)
          · simp only [Except.ok.injEq] at h
            subst h
            refine ⟨hlinv, ?_, ?_⟩
            · intro hc
              exact absurd hc hnops
            · intro rc hrc
              obtain rfl := Option.some.inj hrc
              exact ⟨hrinv.1, hrinv.2, hlchain⟩
      · -- Unknown / Comp
        exact absurd h (by simp)

theorem isCompStart_digit_false (ch : Char) (hd : ch.isDigit = true) :
    isCompStart ch = false := by
  simp only [isCompStart, Bool.or_eq_false_iff, decide_eq_false_iff_not]
  refine ⟨⟨?_, ?_⟩, ?_⟩ <;> rintro rfl <;> exact absurd hd (by decide)

/-! ### C4: chaining rules of the requirement parser -/

/-- C4: a parsed requirement carries two comparators only when both
are chainable (neither NoOp nor Exact, joined by the single `&&` of
the grammar); an input whose first comparator is NoOp or Exact
followed by further non-whitespace fails with the
`NoOp and Exact cannot chain` diagnostic; an input whose second
comparator after `&&` is NoOp (digit start) or Exact (`=`) or missing
fails with the `expected >=, <=, >, or <` diagnostic. -/
theorem c4_chain_rules (s : List Char) :
    (∀ r rc, VersionReq.parse s = .ok r → r.right = some rc →
      chainableOp r.left.op ∧ chainableOp rc.op) ∧
    (∀ c p₁, reqParseCompOrOptVer s 0 = .ok (c, p₁) →
      (c.op = none ∨ c.op = some .exact) →
      skipWs s p₁ < s.length →
      VersionReq.parse s
        = .error (reqErr s (skipWs s p₁) "NoOp and Exact cannot chain")) ∧
    (∀ c p₁ p₂, reqParseCompOrOptVer s 0 = .ok (c, p₁) →
      chainableOp c.op →
      reqLexNext s p₁ = .ok (.and, p₂) →
      (s.length ≤ skipWs s p₂ ∨
        ∃ ch, s[skipWs s p₂]? = some ch ∧ (ch.isDigit = true ∨ ch = '=')) →
      VersionReq.parse s
        = .error (reqErr s (skipWs s p₂) "expected >=, <=, >, or <")) := by
  refine ⟨?_, ?_, ?_⟩
  · intro r rc hok hrc
    have hinv := versionReqParse_inv s r hok
    have := hinv.2.2 rc hrc
    exact ⟨this.2.2, this.2.1⟩
  · intro c p₁ hcomp hop htrail
    unfold VersionReq.parse
    simp only [hcomp]
    rw [if_pos hop, if_pos htrail]
  · intro c p₁ p₂ hcomp hchain hand hsec
    have hno : ¬(c.op = none ∨ c.op = some .exact) := by
      rcases hchain with h | h | h | h <;> simp [h]
    have hrpc : reqParseComparator s p₂
        = .error (reqErr s (skipWs s p₂) "expected >=, <=, >, or <") := by
      unfold reqParseComparator
      rcases hsec with hlen | ⟨ch, hch, hkind⟩
      · simp only [List.getElem?_eq_none hlen]
      · simp only [hch]
        rcases hkind with hd | rfl
        · rw [if_pos (by rw [isCompStart_digit_false ch hd]; rfl)]
        · rw [if_neg (by simp [isCompStart]), if_pos rfl]
    unfold VersionReq.parse
    simp only [hcomp]
    rw [if_neg hno]
    simp only [hand, hrpc]

/-- Witness for C4 at the inputs `<1.2.3&&>=1.2.3` (both parts
chainable), `1.2.3 && 4.5.6` (NoOp left cannot chain) and
`<1.2.3 && 4.5.6` (NoOp right rejected). -/
theorem c4_chain_rules_witness :
    (chainableOp
        (⟨⟨some .lt, 1, some 2, some 3, []⟩,
          some ⟨some .gte, 1, some 2, some 3, []⟩⟩ : VersionReq).left.op ∧
      chainableOp (⟨some .gte, 1, some 2, some 3, []⟩ : Comparator).op) ∧
    VersionReq.parse "1.2.3 && 4.5.6".data
      = .error ("invalid version requirement:\n1.2.3 && 4.5.6\n"
          ++ "      ^ NoOp and Exact cannot chain") ∧
    VersionReq.parse "<1.2.3 && 4.5.6".data
      = .error ("invalid version requirement:\n<1.2.3 && 4.5.6\n"
          ++ "          ^ expected >=, <=, >, or <") := by
  refine ⟨?_, ?_, ?_⟩
  · exact (c4_chain_rules "<1.2.3&&>=1.2.3".data).1
      ⟨⟨some .lt, 1, some 2, some 3, []⟩,
        some ⟨some .gte, 1, some 2, some 3, []⟩⟩
      ⟨some .gte, 1, some 2, some 3, []⟩ rfl rfl
  · have h := (c4_chain_rules "1.2.3 && 4.5.6".data).2.1
      ⟨none, 1, some 2, some 3, []⟩ 5 rfl (Or.inl rfl) (by decide)
    exact h.trans rfl
  · have h := (c4_chain_rules "<1.2.3 && 4.5.6".data).2.2
      ⟨some .lt, 1, some 2, some 3, []⟩ 6 9 rfl
      (Or.inr (Or.inr (Or.inl rfl))) rfl
      (Or.inr ⟨'4', rfl, Or.inl (by decide)⟩)
    exact h.trans rfl

/-! ### C9: canonicalization is idempotent -/

theorem versionReq_canonicalize_chainable (r : VersionReq)
    (hop : chainableOp r.left.op) :
    r.canonicalize
      = ⟨r.left.canonicalize, r.right.map Comparator.canonicalize⟩ := by
  rcases hop with h | h | h | h <;> simp [VersionReq.canonicalize, h]

theorem chainableOp_of_canonicalize (c : Comparator)
    (hop : chainableOp c.op) : chainableOp c.canonicalize.op := by
  obtain ⟨o, maj, mn, pt, pre⟩ := c
  rcases hop with h | h | h | h <;> simp only at h <;> subst h <;>
    rcases mn with _ | m <;> rcases pt with _ | p <;>
      simp [Comparator.canonicalize, chainableOp]

theorem comparator_canonicalize_idem (c : Comparator) (hinv : cmpInv c)
    (hop : chainableOp c.op) : c.canonicalize.canonicalize = c.canonicalize := by
  obtain ⟨o, maj, mn, pt, pre⟩ := c
  rcases hop with h | h | h | h <;> simp only at h <;> subst h
  · -- gt
    rcases hpt : pt with _ | p
    · rcases mn with _ | m <;>
        simp [Comparator.canonicalize]
    · have hmn := hinv.1 (by simp [hpt])
      rcases mn with _ | m
      · simp at hmn
      · simp [Comparator.canonicalize]
  · -- gte
    rcases pt with _ | p <;> rcases mn with _ | m <;>
      simp [Comparator.canonicalize]
  · -- lt
    rcases pt with _ | p <;> rcases mn with _ | m <;>
      simp [Comparator.canonicalize]
  · -- lte
    rcases hpt : pt with _ | p
    · rcases mn with _ | m <;>
        simp [Comparator.canonicalize]
    · have hmn := hinv.1 (by simp [hpt])
      rcases mn with _ | m
      · simp at hmn
      · simp [Comparator.canonicalize]

theorem versionReq_canonicalize_idem_chainable (lc : Comparator)
    (right : Option Comparator) (hlinv : cmpInv lc)
    (hlop : chainableOp lc.op)
    (hr : ∀ rc, right = some rc → cmpInv rc ∧ chainableOp rc.op) :
    (VersionReq.mk lc right).canonicalize.canonicalize
      = (VersionReq.mk lc right).canonicalize := by
  have h1 := versionReq_canonicalize_chainable ⟨lc, right⟩ hlop
  have h2 := versionReq_canonicalize_chainable
    ⟨lc.canonicalize, right.map Comparator.canonicalize⟩
    (chainableOp_of_canonicalize lc hlop)
  rw [h1, h2]
  refine congrArg₂ VersionReq.mk ?_ ?_
  · exact comparator_canonicalize_idem lc hlinv hlop
  · rcases right with _ | rc
    · rfl
    · obtain ⟨hrcinv, hrcop⟩ := hr rc rfl
      simp only [Option.map_some]
      exact congrArg some (comparator_canonicalize_idem rc hrcinv hrcop)

/-- C9: for every successfully parsed version requirement,
`canonicalize` is idempotent — the second application changes
nothing (and hence neither the comparator structure nor any rendering
of it). -/
theorem c9_canonicalize_idempotent (s : List Char) (r : VersionReq)
    (h : VersionReq.parse s = .ok r) :
    r.canonicalize.canonicalize = r.canonicalize := by
  obtain ⟨hlinv, hnoopright, hright⟩ := versionReqParse_inv s r h
  obtain ⟨left, right⟩ := r
  obtain ⟨o, maj, mn, pt, pre⟩ := left
  simp only at hlinv hnoopright hright
  rcases o with _ | op
  · -- NoOp left: right is none
    have hr : right = none := hnoopright (Or.inl rfl)
    subst hr
    rcases hpt : pt with _ | p
    · rcases mn with _ | m
      · simp [VersionReq.canonicalize, canonicalizeNoOp, Comparator.canonicalize]
      · by_cases hmaj : maj > 0 <;> by_cases hm : m > 0 <;>
          simp [VersionReq.canonicalize, canonicalizeNoOp,
            Comparator.canonicalize, hmaj, hm]
    · have hmn := hlinv.1 (by simp [hpt])
      rcases mn with _ | m
      · simp at hmn
      · by_cases hmaj : maj > 0 <;> by_cases hm : m > 0 <;>
          simp [VersionReq.canonicalize, canonicalizeNoOp, canonicalizeExact,
            Comparator.canonicalize, hmaj, hm]
  · rcases hopv : op with _ | _ | _ | _ | _
    · -- Exact left: right is none
      subst hopv
      have hr : right = none := hnoopright (Or.inr rfl)
      subst hr
      rcases hpt : pt with _ | p
      · rcases mn with _ | m <;>
          simp [VersionReq.canonicalize, canonicalizeExact,
            Comparator.canonicalize]
      · have hmn := hlinv.1 (by simp [hpt])
        rcases mn with _ | m
        · simp at hmn
        · simp [VersionReq.canonicalize, canonicalizeExact,
            Comparator.canonicalize]
    all_goals
      subst hopv
      exact versionReq_canonicalize_idem_chainable _ right hlinv
        (by simp [chainableOp])
        (fun rc hrc => ⟨(hright rc hrc).1, (hright rc hrc).2.1⟩)

/-- Witness for C9 at the parsed requirement `>1.2 && <3`. -/
theorem c9_canonicalize_idempotent_witness :
    VersionReq.parse ">1.2 && <3".data
      = .ok ⟨⟨some .gt, 1, some 2, none, []⟩,
             some ⟨some .lt, 3, none, none, []⟩⟩ ∧
    (⟨⟨some .gt, 1, some 2, none, []⟩,
      some ⟨some .lt, 3, none, none, []⟩⟩ :
        VersionReq).canonicalize.canonicalize
      = (⟨⟨some .gt, 1, some 2, none, []⟩,
          some ⟨some .lt, 3, none, none, []⟩⟩ : VersionReq).canonicalize :=
  ⟨rfl, c9_canonicalize_idempotent ">1.2 && <3".data
    ⟨⟨some .gt, 1, some 2, none, []⟩, some ⟨some .lt, 3, none, none, []⟩⟩ rfl⟩

/-! ### C1: canonicalization preserves satisfaction for
prerelease-free requirements -/

theorem comparator_canonicalize_pre (c : Comparator) :
    c.canonicalize.pre = c.pre := by
  obtain ⟨o, maj, mn, pt, cpre⟩ := c
  rcases o with _ | op
  · rfl
  · rcases op <;> rcases mn with _ | m <;> rcases pt with _ | p <;>
      simp [Comparator.canonicalize]

theorem canonicalize_pre_free (r : VersionReq) (hL : r.left.pre = [])
    (hR : ∀ rc, r.right = some rc → rc.pre = []) :
    r.canonicalize.left.pre = [] ∧
    ∀ rc, r.canonicalize.right = some rc → rc.pre = [] := by
  obtain ⟨left, right⟩ := r
  simp only at hL hR
  rcases hop : left.op with _ | op
  · -- NoOp
    simp only [VersionReq.canonicalize, hop]
    unfold canonicalizeNoOp
    split_ifs <;> simp_all
  · rcases op with _ | _ | _ | _ | _
    · -- Exact
      simp only [VersionReq.canonicalize, hop]
      unfold canonicalizeExact
      split_ifs <;> simp_all
    all_goals
      simp only [VersionReq.canonicalize, hop]
      refine ⟨by rw [comparator_canonicalize_pre]; exact hL, ?_⟩
      rintro rc hrc
      rcases right with _ | rc0
      · simp at hrc
      · simp only [Option.map_some', Option.some.injEq] at hrc
        subst hrc
        rw [comparator_canonicalize_pre]
        exact hR rc0 rfl

theorem req_satisfiedBy_pre_ne (r : VersionReq) (hL : r.left.pre = [])
    (hR : ∀ rc, r.right = some rc → rc.pre = []) (v : Version)
    (hv : v.pre ≠ []) : r.satisfiedBy v = false := by
  obtain ⟨left, right⟩ := r
  simp only at hL hR
  have hvE : List.isEmpty v.pre = false :=
    (prerelease_isEmpty_false_iff v.pre).2 hv
  rcases right with _ | rc
  · simp [VersionReq.satisfiedBy, preIsCompatible, hL, hvE]
  · simp [VersionReq.satisfiedBy, preIsCompatible, hL, hR rc rfl, hvE]

theorem req_satisfiedBy_pre_nil (r : VersionReq) (v : Version)
    (hv : v.pre = []) :
    r.satisfiedBy v
      = (r.left.satisfiedBy v &&
          (match r.right with
           | some rc => rc.satisfiedBy v
           | none => true)) := by
  obtain ⟨left, right⟩ := r
  have hvE : List.isEmpty v.pre = true := by simp [hv]
  rcases right with _ | rc
  · cases hls : left.satisfiedBy v <;>
      simp [VersionReq.satisfiedBy, hls, hvE]
  · cases hls : left.satisfiedBy v <;> cases hrs : rc.satisfiedBy v <;>
      simp [VersionReq.satisfiedBy, hls, hrs, hvE]

set_option maxHeartbeats 1600000 in
theorem comparator_canonicalize_satisfiedBy (c : Comparator)
    (hinv : cmpInv c) (hpre : c.pre = []) (hop : chainableOp c.op)
    (v : Version) (hv : v.pre = []) :
    c.canonicalize.satisfiedBy v = c.satisfiedBy v := by
  obtain ⟨o, maj, mn, pt, cpre⟩ := c
  obtain ⟨vmaj, vmin, vpat, vpre⟩ := v
  simp only at hpre hv
  subst hpre hv
  rcases hop with h | h | h | h <;> simp only at h <;> subst h <;>
    rcases mn with _ | m <;> rcases pt with _ | p
  all_goals
    first
    | exact Bool.noConfusion (hinv.1 rfl)
    | (rw [Bool.eq_iff_iff]
       simp only [Comparator.satisfiedBy, Comparator.canonicalize,
         matchesExact, matchesGreater, matchesLess, preGt, preGe, preLt,
         Option.getD, Option.elim, Bool.or_eq_true, decide_eq_true_eq,
         Bool.not_eq_true', decide_eq_false_iff_not] <;>
       ((try split_ifs) <;> simp_all <;> omega))

set_option maxHeartbeats 1600000 in
theorem canonicalizeNoOp_satisfiedBy (req : VersionReq) (hinv : cmpInv req.left)
    (hop : req.left.op = none) (hrt : req.right = none)
    (hpre : req.left.pre = []) (v : Version) (hv : v.pre = []) :
    (canonicalizeNoOp req).satisfiedBy v = req.satisfiedBy v := by
  rw [req_satisfiedBy_pre_nil _ _ hv, req_satisfiedBy_pre_nil _ _ hv]
  obtain ⟨⟨o, maj, mn, pt, cpre⟩, right⟩ := req
  simp only at hop hrt hpre
  subst hop hrt hpre
  obtain ⟨vmaj, vmin, vpat, vpre⟩ := v
  simp only at hv
  subst hv
  rcases mn with _ | m <;> rcases pt with _ | p
  all_goals
    first
    | exact Bool.noConfusion (hinv.1 rfl)
    | (rw [Bool.eq_iff_iff]
       simp only [canonicalizeNoOp] <;> (try split_ifs) <;>
         (simp only [Comparator.satisfiedBy, matchesNoOp, matchesExact,
            matchesGreater, matchesLess, preGt, preGe, preLt, Option.getD,
            Option.elim, Bool.or_eq_true, Bool.and_eq_true, decide_eq_true_eq,
            Bool.not_eq_true', decide_eq_false_iff_not] <;>
          ((try split_ifs) <;> simp_all <;> omega)))

set_option maxHeartbeats 1600000 in
theorem canonicalizeExact_satisfiedBy (req : VersionReq) (hinv : cmpInv req.left)
    (hop : req.left.op = some Op.exact) (hrt : req.right = none)
    (hpre : req.left.pre = []) (v : Version) (hv : v.pre = []) :
    (canonicalizeExact req).satisfiedBy v = req.satisfiedBy v := by
  rw [req_satisfiedBy_pre_nil _ _ hv, req_satisfiedBy_pre_nil _ _ hv]
  obtain ⟨⟨o, maj, mn, pt, cpre⟩, right⟩ := req
  simp only at hop hrt hpre
  subst hop hrt hpre
  obtain ⟨vmaj, vmin, vpat, vpre⟩ := v
  simp only at hv
  subst hv
  rcases mn with _ | m <;> rcases pt with _ | p
  all_goals
    first
    | exact Bool.noConfusion (hinv.1 rfl)
    | (rw [Bool.eq_iff_iff]
       simp only [canonicalizeExact] <;> (try split_ifs) <;>
         (simp only [Comparator.satisfiedBy, matchesNoOp, matchesExact,
            matchesGreater, matchesLess, preGt, preGe, preLt, Option.getD,
            Option.elim, Bool.or_eq_true, Bool.and_eq_true, decide_eq_true_eq,
            Bool.not_eq_true', decide_eq_false_iff_not] <;>
          ((try split_ifs) <;> simp_all <;> omega)))

theorem canonicalize_chainable_satisfiedBy (r : VersionReq)
    (hinvL : cmpInv r.left) (hL : r.left.pre = [])
    (hchain : chainableOp r.left.op)
    (hRt : ∀ rc, r.right = some rc → cmpInv rc ∧ chainableOp rc.op)
    (hR : ∀ rc, r.right = some rc → rc.pre = [])
    (v : Version) (hv : v.pre = []) :
    VersionReq.satisfiedBy
      { left := r.left.canonicalize, right := r.right.map Comparator.canonicalize } v
      = r.satisfiedBy v := by
  rw [req_satisfiedBy_pre_nil _ _ hv, req_satisfiedBy_pre_nil _ _ hv]
  simp only
  rw [comparator_canonicalize_satisfiedBy r.left hinvL hL hchain v hv]
  rcases hr : r.right with _ | rc
  · simp only [Option.map_none']
  · obtain ⟨hinvR, hchR⟩ := hRt rc hr
    simp only [Option.map_some']
    rw [comparator_canonicalize_satisfiedBy rc hinvR (hR rc hr) hchR v hv]

/-- C1 counterexample: the claim says canonicalization preserves
satisfaction for every parsed requirement and every version,
"including when v has a nonempty prerelease component".  The parsed
requirement `<=1.2.3-alpha` is satisfied by the version `1.2.3-alpha`,
but its canonical form `<1.2.4` (built by `Comparator::canonicalize`
with the prerelease kept on the comparator but the operator turned
into `<` on the bumped patch) is not: for the prerelease version
`1.2.3-alpha`, `preIsCompatible` fails against the canonical
comparator because the named patch changed from 3 to 4. -/
theorem c1_canonicalize_counterexample :
    VersionReq.parse "<=1.2.3-alpha".data
      = .ok ⟨⟨some .lte, 1, some 2, some 3, [.alnum "alpha"]⟩, none⟩ ∧
    VersionReq.satisfiedBy
      ⟨⟨some .lte, 1, some 2, some 3, [.alnum "alpha"]⟩, none⟩
      ⟨1, 2, 3, [.alnum "alpha"]⟩ = true ∧
    (VersionReq.canonicalize
        ⟨⟨some .lte, 1, some 2, some 3, [.alnum "alpha"]⟩, none⟩).satisfiedBy
      ⟨1, 2, 3, [.alnum "alpha"]⟩ = false :=
  ⟨rfl, by decide, by decide⟩

/-- C1 (amended): for every successfully parsed version requirement
whose comparators carry no prerelease component, canonicalization
preserves satisfaction at every version v, including versions with a
nonempty prerelease (both sides then reject v). -/
theorem c1_canonicalize_equiv (s : List Char) (r : VersionReq)
    (hp : VersionReq.parse s = .ok r)
    (hL : r.left.pre = []) (hR : ∀ rc, r.right = some rc → rc.pre = [])
    (v : Version) :
    r.canonicalize.satisfiedBy v = r.satisfiedBy v := by
  obtain ⟨hinvL, hNE, hRt⟩ := versionReqParse_inv s r hp
  by_cases hv : v.pre = []
  · rcases hopc : r.left.op with _ | op
    · have hright : r.right = none := hNE (Or.inl hopc)
      have hc : r.canonicalize = canonicalizeNoOp r := by
        simp only [VersionReq.canonicalize, hopc]
      rw [hc]
      exact canonicalizeNoOp_satisfiedBy r hinvL hopc hright hL v hv
    · rcases op with _ | _ | _ | _ | _
      · have hright : r.right = none := hNE (Or.inr hopc)
        have hc : r.canonicalize = canonicalizeExact r := by
          simp only [VersionReq.canonicalize, hopc]
        rw [hc]
        exact canonicalizeExact_satisfiedBy r hinvL hopc hright hL v hv
      all_goals (
        have hchain : chainableOp r.left.op := by simp [chainableOp, hopc]
        have hc : r.canonicalize
            = { left := r.left.canonicalize,
                right := r.right.map Comparator.canonicalize } := by
          simp only [VersionReq.canonicalize, hopc]
        rw [hc]
        exact canonicalize_chainable_satisfiedBy r hinvL hL hchain
          (fun rc h => ⟨(hRt rc h).1, (hRt rc h).2.1⟩) hR v hv)
  · have h1 := req_satisfiedBy_pre_ne r hL hR v hv
    obtain ⟨hL2, hR2⟩ := canonicalize_pre_free r hL hR
    rw [h1, req_satisfiedBy_pre_ne r.canonicalize hL2 hR2 v hv]

/-- Witness for C1 at the parsed requirement `>=1.2.3` and the
versions `1.2.3` and `1.2.3-alpha`. -/
theorem c1_canonicalize_equiv_witness :
    VersionReq.parse ">=1.2.3".data
      = .ok ⟨⟨some .gte, 1, some 2, some 3, []⟩, none⟩ ∧
    (VersionReq.canonicalize
        ⟨⟨some .gte, 1, some 2, some 3, []⟩, none⟩).satisfiedBy ⟨1, 2, 3, []⟩
      = VersionReq.satisfiedBy
          ⟨⟨some .gte, 1, some 2, some 3, []⟩, none⟩ ⟨1, 2, 3, []⟩ ∧
    (VersionReq.canonicalize
        ⟨⟨some .gte, 1, some 2, some 3, []⟩, none⟩).satisfiedBy
        ⟨1, 2, 3, [.alnum "alpha"]⟩
      = VersionReq.satisfiedBy
          ⟨⟨some .gte, 1, some 2, some 3, []⟩, none⟩ ⟨1, 2, 3, [.alnum "alpha"]⟩ :=
  ⟨rfl,
   c1_canonicalize_equiv ">=1.2.3".data _ rfl rfl
     (fun rc h => Option.noConfusion h) ⟨1, 2, 3, []⟩,
   c1_canonicalize_equiv ">=1.2.3".data _ rfl rfl
     (fun rc h => Option.noConfusion h) ⟨1, 2, 3, [.alnum "alpha"]⟩⟩
theorem permThreeMem {l : List String} (h : l.Perm ["c", "b", "a"]) :
    l ∈ ([["c", "b", "a"], ["b", "c", "a"], ["b", "a", "c"],
          ["c", "a", "b"], ["a", "c", "b"], ["a", "b", "c"]] : List (List String)) :=
  List.mem_permutations'.2 h

/-- C5: Makefile emission is deterministic and ordered.  For the
variable chain `c := 3 (deps b)`, `b := 2 (deps a)`, `a := 1`, every
iteration order of the variable map and of the in-degree seeding map
(the maps are unordered, so all permutations are quantified) yields
exactly `"a := 1\nb := 2\nc := 3\n"`; for the target chain
`c (echo c, deps b)`, `b (echo b, deps a)`, `a (echo a)`, the rules
are emitted in reverse topological order, `c:` first. -/
theorem c5_emit_ordered :
    (∀ varOrder seedV : List String,
      varOrder.Perm ["c", "b", "a"] → seedV.Perm varOrder →
      varChainConfig.emitMakefile varOrder seedV [] []
        = .ok "a := 1\nb := 2\nc := 3\n") ∧
    (∀ tgtOrder seedT : List String,
      tgtOrder.Perm ["c", "b", "a"] → seedT.Perm tgtOrder →
      targetChainConfig.emitMakefile [] [] tgtOrder seedT
        = .ok "c: b\n\techo c\n\nb: a\n\techo b\n\na:\n\techo a\n\n") := by
  constructor
  · intro vo sv hvo hsv
    have h1 := permThreeMem hvo
    have h2 := permThreeMem (hsv.trans hvo)
    fin_cases h1 <;> fin_cases h2 <;> rfl
  · intro tord st hto hst
    have h1 := permThreeMem hto
    have h2 := permThreeMem (hst.trans hto)
    fin_cases h1 <;> fin_cases h2 <;> rfl

/-- Witness for C5 at the iteration orders `["b", "c", "a"]` /
`["a", "b", "c"]` (variables) and `["a", "c", "b"]` / `["c", "b", "a"]`
(targets). -/
theorem c5_emit_ordered_witness :
    varChainConfig.emitMakefile ["b", "c", "a"] ["a", "b", "c"] [] []
      = .ok "a := 1\nb := 2\nc := 3\n" ∧
    targetChainConfig.emitMakefile [] [] ["a", "c", "b"] ["c", "b", "a"]
      = .ok "c: b\n\techo c\n\nb: a\n\techo b\n\na:\n\techo a\n\n" :=
  ⟨c5_emit_ordered.1 ["b", "c", "a"] ["a", "b", "c"] (by decide) (by decide),
   c5_emit_ordered.2 ["a", "c", "b"] ["c", "b", "a"] (by decide) (by decide)⟩

/-! ### C6 support: the kept adjacency, residual degrees, and the
emission order invariant of Kahn's algorithm -/

/-- The kept adjacency entries: edges whose source is a defined node
(Algos.hpp:115 skips the others). -/
def adjKept (nodes : List String) (adj : List (String × List String)) :
    List (String × List String) :=
  adj.filter fun p => decide (p.1 ∈ nodes)

/-- Ghost function: the residual in-degree of `v` once the sources in
`res` have been processed. -/
def remDeg (nodes : List String) (adj : List (String × List String))
    (res : List String) (v : String) : Nat :=
  ((adjKept nodes adj).map fun p =>
    if p.1 ∈ res then 0 else p.2.count v).sum

/-- The dependency edge relation restricted to defined sources:
`w → v` when `w` is a defined node whose adjacency entry lists `v`. -/
def edgeIn (nodes : List String) (adj : List (String × List String))
    (w v : String) : Prop :=
  w ∈ nodes ∧ ∃ ns, lookupVal adj w = some ns ∧ v ∈ ns

/-- An emission order is valid when every kept edge into an emitted
node comes from a node emitted strictly earlier. -/
def validEmit (nodes : List String) (adj : List (String × List String))
    (res : List String) : Prop :=
  ∀ v ∈ res, ∀ w, edgeIn nodes adj w v →
    w ∈ res ∧ res.indexOf w < res.indexOf v

theorem wrapDec_eq (n : Nat) (h1 : 1 ≤ n) (h2 : n < degMod) :
    wrapDec n = n - 1 := by
  unfold wrapDec degMod at *
  omega

theorem lookupVal_kept (nodes : List String)
    (adj : List (String × List String)) (u : String) (hu : u ∈ nodes) :
    lookupVal (adjKept nodes adj) u = lookupVal adj u := by
  induction adj with
  | nil => rfl
  | cons p t ih =>
    by_cases hp : p.1 = u
    · simp [adjKept, lookupVal, List.filter_cons, hp, hu, List.find?_cons]
    · by_cases hk : p.1 ∈ nodes
      · simpa [adjKept, lookupVal, List.filter_cons, hk, List.find?_cons, hp]
          using ih
      · simpa [adjKept, lookupVal, List.filter_cons, hk, List.find?_cons, hp]
          using ih

theorem lookupVal_of_mem {α : Type} (m : List (String × α))
    (hnd : (m.map Prod.fst).Nodup) (p : String × α) (hp : p ∈ m) :
    lookupVal m p.1 = some p.2 := by
  induction m with
  | nil => simp at hp
  | cons q t ih =>
    simp only [List.map_cons, List.nodup_cons] at hnd
    rcases List.mem_cons.1 hp with rfl | hp
    · simp [lookupVal, List.find?_cons]
    · have hne : q.1 ≠ p.1 := fun he =>
        hnd.1 (he ▸ List.mem_map_of_mem Prod.fst hp)
      have ht := ih hnd.2 hp
      unfold lookupVal at ht ⊢
      simpa [List.find?_cons, decide_eq_false hne] using ht

theorem indexOf_append_left {l l' : List String} {x : String} (h : x ∈ l) :
    (l ++ l').indexOf x = l.indexOf x := by
  induction l with
  | nil => simp at h
  | cons a t ih =>
    by_cases ha : a = x
    · simp [List.indexOf_cons, ha]
    · rcases List.mem_cons.1 h with rfl | h
      · simp at ha
      · simp [List.indexOf_cons, ha, ih h]

theorem indexOf_append_right {l l' : List String} {x : String} (h : x ∉ l) :
    (l ++ l').indexOf x = l.length + l'.indexOf x := by
  induction l with
  | nil => simp
  | cons a t ih =>
    have ha : a ≠ x := fun he => h (he ▸ List.mem_cons_self a t)
    have h' : x ∉ t := fun hx => h (List.mem_cons_of_mem a hx)
    simp [List.indexOf_cons, ha, ih h']
    omega

theorem innerKeys_id (ns ks : List String) (h : ∀ v ∈ ns, v ∈ ks) :
    ns.foldl (fun ks v => if v ∈ ks then ks else ks ++ [v]) ks = ks := by
  induction ns generalizing ks with
  | nil => rfl
  | cons a t ih =>
    have ha : a ∈ ks := h a (List.mem_cons_self a t)
    simp only [List.foldl_cons, if_pos ha]
    exact ih ks fun v hv => h v (List.mem_cons_of_mem a hv)

theorem inDegKeys_eq_nodes (nodes : List String)
    (adj : List (String × List String))
    (hnb : ∀ p ∈ adj, p.1 ∈ nodes → ∀ v ∈ p.2, v ∈ nodes) :
    inDegKeys nodes adj = nodes := by
  unfold inDegKeys
  have h : ∀ l : List (String × List String),
      (∀ p ∈ l, ∀ v ∈ p.2, v ∈ nodes) →
      l.foldl (fun ks p => p.2.foldl
        (fun ks v => if v ∈ ks then ks else ks ++ [v]) ks) nodes = nodes := by
    intro l
    induction l with
    | nil => intro _; rfl
    | cons p t ih =>
      intro hl
      simp only [List.foldl_cons]
      rw [innerKeys_id p.2 nodes (hl p (List.mem_cons_self p t))]
      exact ih fun q hq => hl q (List.mem_cons_of_mem p hq)
  refine h _ fun p hp => ?_
  exact hnb p (List.mem_of_mem_filter hp) (by simpa using List.of_mem_filter hp)

theorem remDeg_le_totalAdjLen (nodes : List String)
    (adj : List (String × List String)) (res : List String) (v : String) :
    remDeg nodes adj res v ≤ totalAdjLen adj := by
  unfold remDeg totalAdjLen adjKept
  induction adj with
  | nil => simp
  | cons p t ih =>
    simp only [List.filter_cons, List.map_cons, List.sum_cons]
    split
    · simp only [List.map_cons, List.sum_cons]
      have h1 : (if p.1 ∈ res then 0 else p.2.count v) ≤ p.2.length := by
        split
        · omega
        · exact List.count_le_length v p.2
      omega
    · omega

theorem inDegree_eq_remDeg (nodes : List String)
    (adj : List (String × List String))
    (hsize : totalAdjLen adj < degMod) (v : String) :
    inDegree nodes adj v = remDeg nodes adj [] v := by
  unfold inDegree
  have h1 : remDeg nodes adj [] v
      = ((adj.filter fun p => decide (p.1 ∈ nodes)).map
          fun p => p.2.count v).sum := by
    unfold remDeg adjKept
    congr 1
  rw [← h1]
  exact Nat.mod_eq_of_lt
    (lt_of_le_of_lt (remDeg_le_totalAdjLen nodes adj [] v) hsize)

theorem sum_if_split (l : List (String × List String))
    (hk : (l.map Prod.fst).Nodup) (res : List String) (u : String)
    (hu : u ∉ res) (v : String) :
    (l.map fun p => if p.1 ∈ res then 0 else p.2.count v).sum
      = (l.map fun p => if p.1 ∈ res ++ [u] then 0 else p.2.count v).sum
        + ((lookupVal l u).map fun ns => ns.count v).getD 0 := by
  induction l with
  | nil => simp [lookupVal]
  | cons p t ih =>
    simp only [List.map_cons, List.nodup_cons, List.sum_cons] at hk ⊢
    by_cases hp : p.1 = u
    · have hlk : lookupVal (p :: t) u = some p.2 := by
        unfold lookupVal
        simp [List.find?_cons, hp]
      have htail : (t.map fun q => if q.1 ∈ res then 0 else q.2.count v).sum
          = (t.map fun q => if q.1 ∈ res ++ [u] then 0
              else q.2.count v).sum := by
        congr 1
        refine List.map_congr_left fun q hq => ?_
        have hqu : q.1 ≠ u := by
          intro he
          exact hk.1 (hp ▸ he ▸ List.mem_map_of_mem Prod.fst hq)
        simp [List.mem_append, hqu]
      rw [hlk, htail]
      simp only [Option.map_some', Option.getD_some]
      have h1 : (if p.1 ∈ res then 0 else p.2.count v) = p.2.count v := by
        simp [hp, hu]
      have h2 : (if p.1 ∈ res ++ [u] then 0 else p.2.count v) = 0 := by
        simp [hp]
      omega
    · have hlk : lookupVal (p :: t) u = lookupVal t u := by
        unfold lookupVal
        simp [List.find?_cons, hp]
      have hhead : (if p.1 ∈ res ++ [u] then 0 else p.2.count v)
          = (if p.1 ∈ res then 0 else p.2.count v) := by
        simp [List.mem_append, hp]
      rw [hlk, hhead]
      have := ih hk.2
      omega

theorem remDeg_split (nodes : List String)
    (adj : List (String × List String))
    (hk : ((adjKept nodes adj).map Prod.fst).Nodup)
    (res : List String) (u : String) (hu : u ∉ res) (v : String) :
    remDeg nodes adj res v
      = remDeg nodes adj (res ++ [u]) v
        + ((lookupVal (adjKept nodes adj) u).map
            fun ns => ns.count v).getD 0 :=
  sum_if_split (adjKept nodes adj) hk res u hu v

theorem remDeg_ge_count (nodes : List String)
    (adj : List (String × List String))
    (hk : ((adjKept nodes adj).map Prod.fst).Nodup)
    (res : List String) (u : String) (hun : u ∈ nodes) (hu : u ∉ res)
    (ns : List String) (hlk : lookupVal adj u = some ns) (v : String) :
    ns.count v ≤ remDeg nodes adj res v := by
  have h := remDeg_split nodes adj hk res u hu v
  rw [lookupVal_kept nodes adj u hun, hlk] at h
  simp only [Option.map_some', Option.getD_some] at h
  omega

theorem kahnFold_spec (ns : List String) (d : String → Nat)
    (out : List String) (hge : ∀ v, ns.count v ≤ d v)
    (hlt : ∀ v, d v < degMod) (hnodup : out.Nodup)
    (hout : ∀ v ∈ out, ns.count v = 0) :
    (∀ v, (ns.foldl (fun (acc : (String → Nat) × List String) v =>
        ((fun x => if x = v then wrapDec (acc.1 v) else acc.1 x),
         if wrapDec (acc.1 v) = 0 then acc.2 ++ [v] else acc.2))
        (d, out)).1 v = d v - ns.count v) ∧
    (ns.foldl (fun (acc : (String → Nat) × List String) v =>
        ((fun x => if x = v then wrapDec (acc.1 v) else acc.1 x),
         if wrapDec (acc.1 v) = 0 then acc.2 ++ [v] else acc.2))
        (d, out)).2.Nodup ∧
    (∀ v, v ∈ (ns.foldl (fun (acc : (String → Nat) × List String) v =>
        ((fun x => if x = v then wrapDec (acc.1 v) else acc.1 x),
         if wrapDec (acc.1 v) = 0 then acc.2 ++ [v] else acc.2))
        (d, out)).2 ↔ v ∈ out ∨ (v ∈ ns ∧ d v = ns.count v)) := by
  induction ns generalizing d out with
  | nil =>
    refine ⟨fun v => by simp, hnodup, fun v => ?_⟩
    simp
  | cons a t ih =>
    have hda : 1 ≤ d a := le_trans (by simp [List.count_cons]) (hge a)
    have hwd : wrapDec (d a) = d a - 1 := wrapDec_eq (d a) hda (hlt a)
    have hanout : a ∉ out := fun hao => by
      have := hout a hao
      simp [List.count_cons] at this
    simp only [List.foldl_cons, hwd]
    set d' : String → Nat := fun x => if x = a then d a - 1 else d x with hd'
    set out' : List String := if d a - 1 = 0 then out ++ [a] else out
      with hout'
    have hge' : ∀ v, t.count v ≤ d' v := by
      intro v
      by_cases hv : v = a
      · subst hv
        have := hge v
        simp only [List.count_cons_self] at this
        simp [hd']
        omega
      · have := hge v
        rw [List.count_cons_of_ne hv] at this
        simpa [hd', hv] using this
    have hlt' : ∀ v, d' v < degMod := by
      intro v
      by_cases hv : v = a <;> simp [hd', hv]
      · have := hlt a
        omega
      · exact hlt v
    have hnodup' : out'.Nodup := by
      rw [hout']
      split
      · exact List.Nodup.append hnodup (List.nodup_singleton a)
          (by simpa using hanout)
      · exact hnodup
    have houtc : ∀ v ∈ out', t.count v = 0 := by
      intro v hv
      rw [hout'] at hv
      by_cases hda1 : d a - 1 = 0
      · rw [if_pos hda1] at hv
        rcases List.mem_append.1 hv with hv | hv
        · have := hout v hv
          rw [List.count_cons] at this
          omega
        · have hva : v = a := by simpa using hv
          subst hva
          have := hge v
          simp only [List.count_cons_self] at this
          omega
      · rw [if_neg hda1] at hv
        have := hout v hv
        rw [List.count_cons] at this
        omega
    obtain ⟨ih1, ih2, ih3⟩ := ih d' out' hge' hlt' hnodup' houtc
    refine ⟨fun v => ?_, ih2, fun v => ?_⟩
    · rw [ih1 v]
      by_cases hv : v = a
      · subst hv
        have := hge v
        simp only [List.count_cons_self] at this ⊢
        simp [hd']
        omega
      · rw [List.count_cons_of_ne hv]
        simp [hd', hv]
    · rw [ih3 v]
      by_cases hv : v = a
      · subst hv
        have hc := hge v
        simp only [List.count_cons_self] at hc
        have hmem : v ∈ out' ↔ (d v - 1 = 0) := by
          rw [hout']
          by_cases hda1 : d v - 1 = 0
          · simp [hda1, hanout]
          · simp [hda1, hanout]
        rw [hmem]
        simp only [hd', if_pos rfl, List.mem_cons, true_or, true_and,
          List.count_cons_self, hanout, false_or]
        by_cases hat : v ∈ t
        · have h1 : 0 < t.count v := List.count_pos_iff_mem.2 hat
          constructor
          · rintro (h | ⟨_, h⟩) <;> omega
          · intro h
            right
            exact ⟨hat, by omega⟩
        · have h1 : t.count v = 0 := List.count_eq_zero.2 hat
          constructor
          · rintro (h | ⟨hmm, _⟩)
            · omega
            · exact absurd hmm hat
          · intro h
            left
            omega
      · have hmem : v ∈ out' ↔ v ∈ out := by
          rw [hout']
          split
          · simp [List.mem_append, hv]
          · rfl
        rw [hmem, List.mem_cons, List.count_cons_of_ne hv]
        simp [hd', hv]

theorem kahnStep_spec (nodes : List String)
    (adj : List (String × List String))
    (hk : ((adjKept nodes adj).map Prod.fst).Nodup)
    (hnd : (adj.map Prod.fst).Nodup)
    (hsize : totalAdjLen adj < degMod)
    (res : List String) (u : String) (hun : u ∈ nodes) (hu : u ∉ res)
    (hzero : remDeg nodes adj res u = 0) :
    (∀ v, (kahnStep adj u (remDeg nodes adj res)).1 v
        = remDeg nodes adj (res ++ [u]) v) ∧
    (kahnStep adj u (remDeg nodes adj res)).2.Nodup ∧
    (∀ v, v ∈ (kahnStep adj u (remDeg nodes adj res)).2 ↔
      (remDeg nodes adj res v ≠ 0 ∧ remDeg nodes adj (res ++ [u]) v = 0)) := by
  rcases hlk : lookupVal adj u with _ | ns
  · have hstep : kahnStep adj u (remDeg nodes adj res)
        = (remDeg nodes adj res, []) := by
      simp only [kahnStep, hlk]
    have hsame : ∀ v, remDeg nodes adj (res ++ [u]) v
        = remDeg nodes adj res v := by
      intro v
      have h := remDeg_split nodes adj hk res u hu v
      rw [lookupVal_kept nodes adj u hun, hlk] at h
      simpa using h.symm
    rw [hstep]
    refine ⟨fun v => (hsame v).symm, List.nodup_nil, fun v => ?_⟩
    simp only [List.not_mem_nil, false_iff, hsame v]
    omega
  · have hstep : kahnStep adj u (remDeg nodes adj res)
        = ns.foldl (fun (acc : (String → Nat) × List String) v =>
            ((fun x => if x = v then wrapDec (acc.1 v) else acc.1 x),
             if wrapDec (acc.1 v) = 0 then acc.2 ++ [v] else acc.2))
            (remDeg nodes adj res, []) := by
      simp only [kahnStep, hlk]
    have hge : ∀ v, ns.count v ≤ remDeg nodes adj res v :=
      fun v => remDeg_ge_count nodes adj hk res u hun hu ns hlk v
    have hlt : ∀ v, remDeg nodes adj res v < degMod := fun v =>
      lt_of_le_of_lt (remDeg_le_totalAdjLen nodes adj res v) hsize
    obtain ⟨h1, h2, h3⟩ := kahnFold_spec ns (remDeg nodes adj res) []
      hge hlt List.nodup_nil (by simp)
    have hsplit : ∀ v, remDeg nodes adj res v
        = remDeg nodes adj (res ++ [u]) v + ns.count v := by
      intro v
      have h := remDeg_split nodes adj hk res u hu v
      rw [lookupVal_kept nodes adj u hun, hlk] at h
      simpa using h
    rw [hstep]
    refine ⟨fun v => ?_, h2, fun v => ?_⟩
    · rw [h1 v]
      have := hsplit v
      omega
    · rw [h3 v]
      simp only [List.not_mem_nil, false_or]
      have hs := hsplit v
      by_cases hvns : v ∈ ns
      · have hc : 0 < ns.count v := List.count_pos_iff_mem.2 hvns
        constructor
        · rintro ⟨_, hd⟩
          omega
        · rintro ⟨hne, h0⟩
          exact ⟨hvns, by omega⟩
      · have hc : ns.count v = 0 := List.count_eq_zero.2 hvns
        constructor
        · rintro ⟨hmm, _⟩
          exact absurd hmm hvns
        · rintro ⟨hne, h0⟩
          omega

theorem mem_nodes_of_remDeg_ne (nodes : List String)
    (adj : List (String × List String))
    (hnb : ∀ p ∈ adj, p.1 ∈ nodes → ∀ v ∈ p.2, v ∈ nodes)
    (res : List String) (v : String)
    (h : remDeg nodes adj res v ≠ 0) : v ∈ nodes := by
  unfold remDeg at h
  by_contra hv
  apply h
  apply List.sum_eq_zero
  intro x hx
  obtain ⟨p, hp, hpx⟩ := List.mem_map.1 hx
  have hpadj : p ∈ adj := List.mem_of_mem_filter hp
  have hpn : p.1 ∈ nodes := by simpa using List.of_mem_filter hp
  subst hpx
  split
  · rfl
  · by_contra hc
    exact hv (hnb p hpadj hpn v (List.count_pos_iff_mem.1 (by omega)))

theorem remDeg_append_le (nodes : List String)
    (adj : List (String × List String))
    (hk : ((adjKept nodes adj).map Prod.fst).Nodup)
    (res : List String) (u : String) (hu : u ∉ res) (v : String) :
    remDeg nodes adj (res ++ [u]) v ≤ remDeg nodes adj res v := by
  have := remDeg_split nodes adj hk res u hu v
  omega

theorem kahnLoop_spec (nodes : List String)
    (adj : List (String × List String)) (hndn : nodes.Nodup)
    (hnd : (adj.map Prod.fst).Nodup)
    (hk : ((adjKept nodes adj).map Prod.fst).Nodup)
    (hnb : ∀ p ∈ adj, p.1 ∈ nodes → ∀ v ∈ p.2, v ∈ nodes)
    (hsize : totalAdjLen adj < degMod) :
    ∀ fuel q res deg,
      (∀ x ∈ res ++ q, x ∈ nodes) →
      (res ++ q).Nodup →
      (∀ v, deg v = remDeg nodes adj res v) →
      (∀ v ∈ nodes, (remDeg nodes adj res v = 0 ↔ v ∈ res ++ q)) →
      validEmit nodes adj res →
      nodes.length - res.length < fuel →
      (kahnLoop adj fuel q deg res).Nodup ∧
      (∀ x ∈ kahnLoop adj fuel q deg res, x ∈ nodes) ∧
      validEmit nodes adj (kahnLoop adj fuel q deg res) ∧
      (∀ v ∈ nodes, (remDeg nodes adj (kahnLoop adj fuel q deg res) v = 0
          ↔ v ∈ kahnLoop adj fuel q deg res)) := by
  intro fuel
  induction fuel with
  | zero =>
    intro q res deg _ _ _ _ _ hf
    omega
  | succ fuel ih =>
    intro q res deg hsub hnodup hdeg hzero hvalid hf
    rcases q with _ | ⟨u, q⟩
    · have hloop : kahnLoop adj (fuel + 1) [] deg res = res := rfl
      rw [hloop]
      simp only [List.append_nil] at hsub hnodup hzero
      exact ⟨hnodup, hsub, hvalid, hzero⟩
    · have hfun : deg = remDeg nodes adj res := funext hdeg
      subst hfun
      have hun : u ∈ nodes := hsub u (by simp)
      have hu : u ∉ res := by
        intro hc
        rw [List.nodup_append] at hnodup
        exact hnodup.2.2 hc (by simp)
      have huzero : remDeg nodes adj res u = 0 :=
        (hzero u hun).2 (by simp)
      obtain ⟨hs1, hs2, hs3⟩ :=
        kahnStep_spec nodes adj hk hnd hsize res u hun hu huzero
      have hloop : kahnLoop adj (fuel + 1) (u :: q) (remDeg nodes adj res) res
          = kahnLoop adj fuel (q ++ (kahnStep adj u (remDeg nodes adj res)).2)
              (kahnStep adj u (remDeg nodes adj res)).1 (res ++ [u]) := rfl
      rw [hloop]
      set out := (kahnStep adj u (remDeg nodes adj res)).2 with hout
      -- members of `out` are nodes outside res ++ u :: q
      have houtn : ∀ x ∈ out, x ∈ nodes := by
        intro x hx
        have := (hs3 x).1 hx
        exact mem_nodes_of_remDeg_ne nodes adj hnb res x this.1
      have houtfresh : ∀ x ∈ out, x ∉ res ++ u :: q := by
        intro x hx hc
        have h1 := (hs3 x).1 hx
        exact h1.1 ((hzero x (houtn x hx)).2 hc)
      have hlen : res.length + 1 + q.length ≤ nodes.length := by
        have hsp := List.subperm_of_subset hnodup hsub
        have hle := hsp.length_le
        simp only [List.length_append, List.length_cons] at hle
        omega
      -- new invariants
      have hsub' : ∀ x ∈ (res ++ [u]) ++ (q ++ out), x ∈ nodes := by
        intro x hx
        simp only [List.append_assoc, List.mem_append, List.mem_singleton]
          at hx
        rcases hx with hx | hx | hx | hx
        · exact hsub x (by simp [hx])
        · exact hsub x (by simp [hx])
        · exact hsub x (by simp [hx])
        · exact houtn x hx
      have hnodup' : ((res ++ [u]) ++ (q ++ out)).Nodup := by
        have he : (res ++ [u]) ++ (q ++ out) = (res ++ u :: q) ++ out := by
          simp
        rw [he]
        refine List.Nodup.append hnodup ?_ ?_
        · exact hs2
        · intro x hx hxo
          exact houtfresh x hxo hx
      have hdeg' : ∀ v, (kahnStep adj u (remDeg nodes adj res)).1 v
          = remDeg nodes adj (res ++ [u]) v := hs1
      have hzero' : ∀ v ∈ nodes,
          (remDeg nodes adj (res ++ [u]) v = 0
            ↔ v ∈ (res ++ [u]) ++ (q ++ out)) := by
        intro v hv
        by_cases hvm : v ∈ res ++ u :: q
        · have hold : remDeg nodes adj res v = 0 := (hzero v hv).2 hvm
          have hnew : remDeg nodes adj (res ++ [u]) v = 0 := by
            have := remDeg_append_le nodes adj hk res u hu v
            omega
          simp only [hnew, true_iff]
          simp only [List.mem_append, List.mem_cons,
            List.mem_singleton] at hvm ⊢
          tauto
        · have hold : remDeg nodes adj res v ≠ 0 := by
            intro hc
            exact hvm ((hzero v hv).1 hc)
          have hmem : v ∈ (res ++ [u]) ++ (q ++ out) ↔ v ∈ out := by
            constructor
            · intro hx
              simp only [List.mem_append, List.mem_singleton] at hx hvm
              simp only [List.mem_cons] at hvm
              rcases hx with (hx | hx) | hx | hx
              · exact absurd (Or.inl hx) hvm
              · exact absurd (Or.inr (Or.inl hx)) hvm
              · exact absurd (Or.inr (Or.inr hx)) hvm
              · exact hx
            · intro hx
              simp [hx]
          rw [hmem, hs3 v]
          constructor
          · intro h0
            exact ⟨hold, h0⟩
          · rintro ⟨_, h0⟩
            exact h0
      have hvalid' : validEmit nodes adj (res ++ [u]) := by
        have hedge : ∀ w, edgeIn nodes adj w u → w ∈ res := by
          rintro w ⟨hwn, ns, hlk, hmem⟩
          by_contra hwres
          have := remDeg_ge_count nodes adj hk res w hwn hwres ns hlk u
          have hcnt : 0 < ns.count u := List.count_pos_iff_mem.2 hmem
          omega
        intro v hv w hw
        rcases List.mem_append.1 hv with hv | hv
        · obtain ⟨hwm, hlt⟩ := hvalid v hv w hw
          refine ⟨List.mem_append_left _ hwm, ?_⟩
          rw [indexOf_append_left hwm, indexOf_append_left hv]
          exact hlt
        · have hvu : v = u := by simpa using hv
          subst hvu
          have hwm := hedge w hw
          refine ⟨List.mem_append_left _ hwm, ?_⟩
          rw [indexOf_append_left hwm, indexOf_append_right hu]
          have := (List.indexOf_lt_length).2 hwm
          simp
          omega
      have hf' : nodes.length - (res ++ [u]).length < fuel := by
        simp only [List.length_append, List.length_singleton]
        omega
      exact ih (q ++ out) (res ++ [u])
        (kahnStep adj u (remDeg nodes adj res)).1
        hsub' hnodup' hdeg' hzero' hvalid' hf'

theorem validEmit_no_cycle (nodes : List String)
    (adj : List (String × List String)) (r : List String)
    (h : validEmit nodes adj r) (x : String) (hx : x ∈ r) :
    ¬ Relation.TransGen (edgeIn nodes adj) x x := by
  generalize hn : r.indexOf x = n
  induction n using Nat.strong_induction_on generalizing x with
  | _ n ihn =>
    intro hcyc
    obtain ⟨w, hxw, hwx⟩ := (Relation.TransGen.tail'_iff).1 hcyc
    obtain ⟨hwm, hlt⟩ := h x hx w hwx
    have hcw : Relation.TransGen (edgeIn nodes adj) w w :=
      Relation.TransGen.head' hwx hxw
    exact ihn (r.indexOf w) (hn ▸ hlt) w hwm rfl hcw

theorem cycle_of_all_pred (R : String → String → Prop) (S : List String)
    (hne : S ≠ []) (h : ∀ v ∈ S, ∃ w, w ∈ S ∧ R w v) :
    ∃ x, Relation.TransGen R x x := by
  have hf : ∀ v : {x // x ∈ S}, ∃ w : {x // x ∈ S}, R w.1 v.1 := by
    rintro ⟨v, hv⟩
    obtain ⟨w, hw, hr⟩ := h v hv
    exact ⟨⟨w, hw⟩, hr⟩
  choose f hfR using hf
  obtain ⟨s0, hs0⟩ := List.exists_mem_of_ne_nil S hne
  have hstep : ∀ n : Nat, R (f^[n + 1] ⟨s0, hs0⟩).1 (f^[n] ⟨s0, hs0⟩).1 := by
    intro n
    rw [Function.iterate_succ_apply' f n _]
    exact hfR _
  have hchain : ∀ i j : Nat, i < j →
      Relation.TransGen R (f^[j] ⟨s0, hs0⟩).1 (f^[i] ⟨s0, hs0⟩).1 := by
    intro i j hij
    induction j with
    | zero => omega
    | succ j ihj =>
      rcases Nat.lt_succ_iff_lt_or_eq.1 hij with hij' | rfl
      · exact Relation.TransGen.head (hstep j) (ihj hij')
      · exact Relation.TransGen.single (hstep i)
  have hmap : ∀ n : Nat, S.indexOf (f^[n] ⟨s0, hs0⟩).1 < S.length :=
    fun n => List.indexOf_lt_length.2 (f^[n] ⟨s0, hs0⟩).2
  obtain ⟨a, b, hab, heq⟩ := Fintype.exists_ne_map_eq_of_card_lt
    (fun n : Fin (S.length + 1) =>
      (⟨S.indexOf (f^[n.1] ⟨s0, hs0⟩).1, hmap n.1⟩ : Fin S.length))
    (by simp)
  have heq' : (f^[a.1] ⟨s0, hs0⟩).1 = (f^[b.1] ⟨s0, hs0⟩).1 := by
    have hidx := congrArg Fin.val heq
    simp only at hidx
    exact (List.indexOf_inj (f^[a.1] ⟨s0, hs0⟩).2
      (f^[b.1] ⟨s0, hs0⟩).2).1 hidx
  have hab' : a.1 ≠ b.1 := fun hc => hab (Fin.ext hc)
  rcases Nat.lt_or_ge a.1 b.1 with hlt | hge
  · exact ⟨(f^[a.1] ⟨s0, hs0⟩).1, heq' ▸ hchain a.1 b.1 hlt⟩
  · have hlt : b.1 < a.1 := by omega
    exact ⟨(f^[b.1] ⟨s0, hs0⟩).1, heq'.symm ▸ hchain b.1 a.1 hlt⟩

theorem sum_ne_zero_exists (l : List Nat) (h : l.sum ≠ 0) :
    ∃ x ∈ l, x ≠ 0 := by
  by_contra hc
  push_neg at hc
  exact h (List.sum_eq_zero hc)

/-- C6: `topoSort` fails with `too complex build graph` exactly when
the dependency graph restricted to defined nodes contains a cycle
(`edgeIn` only relates sources that are defined nodes, so dangling
edges from undefined names are ignored and never raise an error), and
every successful sort lists exactly the defined nodes (a permutation
of the node-map keys).  The iteration orders of the unordered node and
in-degree maps are quantified as arbitrary permutations, and the `u32`
in-degree counters are assumed not to overflow (fewer than `2^32`
adjacency entries). -/
theorem c6_toposort_cycle (nodes : List String) (adj : List (String × List String))
    (seedOrder : List String) (hndn : nodes.Nodup)
    (hnd : (adj.map Prod.fst).Nodup)
    (hnb : ∀ p ∈ adj, p.1 ∈ nodes → ∀ v ∈ p.2, v ∈ nodes)
    (hseed : seedOrder.Perm (inDegKeys nodes adj))
    (hsize : totalAdjLen adj < degMod) :
    (topoSort nodes adj seedOrder = .error "too complex build graph" ↔
      ∃ x, Relation.TransGen (edgeIn nodes adj) x x) ∧
    (∀ res, topoSort nodes adj seedOrder = .ok res → res.Perm nodes) := by
  rw [inDegKeys_eq_nodes nodes adj hnb] at hseed
  have hk : ((adjKept nodes adj).map Prod.fst).Nodup :=
    List.Nodup.sublist (List.Sublist.map Prod.fst
      (List.filter_sublist adj)) hnd
  have hdeg0 : ∀ v, inDegree nodes adj v = remDeg nodes adj [] v :=
    inDegree_eq_remDeg nodes adj hsize
  have hseednd : seedOrder.Nodup := (hseed.nodup_iff).2 hndn
  obtain ⟨hrnd, hrsub, hrvalid, hrzero⟩ :=
    kahnLoop_spec nodes adj hndn hnd hk hnb hsize
      (nodes.length + totalAdjLen adj + 1)
      (seedOrder.filter fun v => inDegree nodes adj v == 0)
      [] (inDegree nodes adj)
      (by
        intro x hx
        simp only [List.nil_append, List.mem_filter] at hx
        exact hseed.mem_iff.1 hx.1)
      (by
        simp only [List.nil_append]
        exact hseednd.filter _)
      hdeg0
      (by
        intro v hv
        simp only [List.nil_append, List.mem_filter, beq_iff_eq, ← hdeg0]
        constructor
        · intro h0
          exact ⟨hseed.mem_iff.2 hv, h0⟩
        · intro h0
          exact h0.2)
      (fun v hv => absurd hv (List.not_mem_nil v))
      (by omega)
  set r := kahnLoop adj (nodes.length + totalAdjLen adj + 1)
    (seedOrder.filter fun v => inDegree nodes adj v == 0)
    (inDegree nodes adj) [] with hr
  have htopo : topoSort nodes adj seedOrder
      = if r.length = nodes.length then .ok r
        else .error "too complex build graph" := rfl
  have hsp : r.Subperm nodes := List.subperm_of_subset hrnd hrsub
  constructor
  · constructor
    · -- error → cycle
      intro herr
      have hne : ¬ r.length = nodes.length := by
        intro hc
        rw [htopo, if_pos hc] at herr
        exact Except.noConfusion herr
      have hlt : r.length < nodes.length :=
        lt_of_le_of_ne hsp.length_le hne
      have hex : ∃ x ∈ nodes, x ∉ r := by
        by_contra hc
        push_neg at hc
        have : nodes.Subperm r := List.subperm_of_subset hndn hc
        have := this.length_le
        omega
      obtain ⟨x0, hx0n, hx0r⟩ := hex
      have hS : x0 ∈ nodes.filter fun v => decide (v ∉ r) := by
        simp [List.mem_filter, hx0n, hx0r]
      refine cycle_of_all_pred (edgeIn nodes adj)
        (nodes.filter fun v => decide (v ∉ r))
        (List.ne_nil_of_mem hS) ?_
      intro v hv
      simp only [List.mem_filter, decide_eq_true_eq] at hv
      have hvne : remDeg nodes adj r v ≠ 0 := by
        intro hc
        exact hv.2 ((hrzero v hv.1).1 hc)
      unfold remDeg at hvne
      obtain ⟨t, ht, htne⟩ := sum_ne_zero_exists _ hvne
      obtain ⟨p, hp, hpt⟩ := List.mem_map.1 ht
      have hpn : p.1 ∈ nodes := by simpa using List.of_mem_filter hp
      have hpadj : p ∈ adj := List.mem_of_mem_filter hp
      have hpr : p.1 ∉ r := by
        intro hc
        rw [← hpt] at htne
        simp [hc] at htne
      have hcnt : 0 < p.2.count v := by
        rw [← hpt] at htne
        by_cases hc : p.1 ∈ r
        · exact absurd hc hpr
        · simp only [if_neg hc] at htne
          omega
      refine ⟨p.1, ?_, hpn, p.2, lookupVal_of_mem adj hnd p hpadj,
        List.count_pos_iff_mem.1 hcnt⟩
      simp [List.mem_filter, hpn, hpr]
    · -- cycle → error
      rintro ⟨x, hcyc⟩
      have hxn : x ∈ nodes := by
        obtain ⟨b, hh, _⟩ := (Relation.TransGen.head'_iff).1 hcyc
        exact hh.1
      have hxr : x ∉ r := fun hc =>
        validEmit_no_cycle nodes adj r hrvalid x hc hcyc
      have hne : ¬ r.length = nodes.length := by
        intro hc
        have hperm : r.Perm nodes := hsp.perm_of_length_le (le_of_eq hc.symm)
        exact hxr (hperm.mem_iff.2 hxn)
      rw [htopo, if_neg hne]
  · intro res hres
    rw [htopo] at hres
    by_cases hc : r.length = nodes.length
    · rw [if_pos hc] at hres
      have : r = res := by
        simpa using hres
      subst this
      exact hsp.perm_of_length_le (le_of_eq hc.symm)
    · rw [if_neg hc] at hres
      exact Except.noConfusion hres

/-- Witness for C6: the two-node graph with a dangling edge from the
undefined name `x` sorts successfully into a permutation of the nodes,
and the two-node cycle fails with `too complex build graph`. -/
theorem c6_toposort_cycle_witness :
    (topoSort ["a", "b"] [("a", ["b"]), ("x", ["a"])] ["b", "a"]
        = .ok ["a", "b"] ∧ ["a", "b"].Perm ["a", "b"]) ∧
    topoSort ["a", "b"] [("a", ["b"]), ("b", ["a"])] ["a", "b"]
        = .error "too complex build graph" :=
  ⟨⟨rfl,
    (c6_toposort_cycle ["a", "b"] [("a", ["b"]), ("x", ["a"])] ["b", "a"]
      (by decide) (by decide) (by decide) (by decide) (by decide)).2
      ["a", "b"] rfl⟩,
   (c6_toposort_cycle ["a", "b"] [("a", ["b"]), ("b", ["a"])] ["a", "b"]
      (by decide) (by decide) (by decide) (by decide) (by decide)).1.2
     ⟨"a", Relation.TransGen.head
        (show edgeIn ["a", "b"] [("a", ["b"]), ("b", ["a"])] "a" "b" from
          ⟨by decide, ["b"], rfl, by decide⟩)
        (Relation.TransGen.single
          (show edgeIn ["a", "b"] [("a", ["b"]), ("b", ["a"])] "b" "a" from
            ⟨by decide, ["a"], rfl, by decide⟩))⟩⟩

end Cabin
